import Mathlib

/-!
Verification of the schlernsite utility widgets.

This file gives a shallow embedding of the algorithmic parts of the
repository's browser widgets and proves (or refutes) the stated
properties about them:

* the image converter's target-dimension computation (`convert`),
* the paint editor's `normBounds` bounding-box normalisation,
* the expense splitter (`overlapDays`, `calcSplits`, `encodeState`,
  `decodeState`) together with byte-accurate models of the platform
  primitives it calls (`btoa`/`atob`, `encodeURIComponent`/
  `decodeURIComponent`, `JSON.stringify`/`JSON.parse`),
* the file-transfer senders' chunking loops,
* the image converter's object-URL lifecycle,
* the paint editor's `floodFill`.

JavaScript numbers are modelled by exact rationals, strings by lists of
Unicode code points, and byte buffers by lists of naturals.  Fallible
platform calls are modelled with `Option`: a `none` result corresponds
to a thrown exception.
-/

namespace Schlern

/-- Math.round of JavaScript: half-up rounding, ties toward positive
infinity. -/
def jsRound (x : ℚ) : ℤ := Int.floor (x + 1 / 2)

namespace ImageConv

/-- Resize mode selected in the image converter UI. -/
inductive ResizeMode
| noResize
| pixels
| percent
deriving DecidableEq

/-- Target dimensions chosen by `convert` in the image converter
(`src/unnamed/part_000`, lines 84-104): `nw`/`nh` are the image's
naturalWidth/naturalHeight, `w`/`h` the requested width/height and
`pct` the requested percentage. -/
def convert (nw nh : ℕ) (mode : ResizeMode) (keepAspect : Bool)
    (w h pct : ℤ) : ℤ × ℤ :=
  match mode with
  | .noResize => ((nw : ℤ), (nh : ℤ))
  | .pixels =>
    if keepAspect then
      let r : ℚ := (nw : ℚ) / (nh : ℚ)
      if (w : ℚ) / (h : ℚ) > r then
        (jsRound ((h : ℚ) * r), h)
      else
        (w, jsRound ((w : ℚ) / r))
    else (w, h)
  | .percent => (jsRound ((nw : ℚ) * (pct : ℚ) / 100),
                 jsRound ((nh : ℚ) * (pct : ℚ) / 100))

end ImageConv

namespace PaintEd

/-- Object kinds of the paint editor. -/
inductive ObjType
| rect
| ellipse
| line
| text
| image
deriving DecidableEq

/-- Moveable paint-editor object; the fields `normBounds` can touch plus
the remaining data it must copy unchanged. -/
structure PaintObj where
  id : List ℕ
  layerId : List ℕ
  type : ObjType
  x : ℚ
  y : ℚ
  w : ℚ
  h : ℚ
  opacity : ℚ
  rotation : Option ℚ
deriving DecidableEq

/-- The paint editor's `normBounds` (second document in
`src/src/components/apps/FileTransfer.tsx`, lines 478-484): flips
negative widths/heights, leaves lines untouched. -/
def normBounds (o : PaintObj) : PaintObj :=
  if o.type = .line then o
  else
    let r1 := if o.w < 0 then { o with x := o.x + o.w, w := -o.w } else o
    if r1.h < 0 then { r1 with y := r1.y + r1.h, h := -r1.h } else r1

/-- Tolerance of the flood-fill colour match. -/
def TOL : ℕ := 80

/-- The `matches` check of `floodFill`: the read pixel at byte index `i`
lies within tolerance 80 of the seed colour on every channel. -/
def matchesTarget (rd : ℕ → ℕ) (tr tg tb ta : ℕ) (i : ℕ) : Bool :=
  decide (((rd i : ℤ) - (tr : ℤ)).natAbs ≤ TOL) &&
  decide (((rd (i + 1) : ℤ) - (tg : ℤ)).natAbs ≤ TOL) &&
  decide (((rd (i + 2) : ℤ) - (tb : ℤ)).natAbs ≤ TOL) &&
  decide (((rd (i + 3) : ℤ) - (ta : ℤ)).natAbs ≤ TOL)

/-- Neighbour pushes of one filled pixel, listed in the order the JS array
stack pops them (the source pushes left, right, up, down onto the array
and pops the newest first). -/
def nbrs (CW CH : ℕ) (i : ℕ) : List ℕ :=
  let pi := i / 4
  let x := pi % CW
  let y := pi / CW
  (if y < CH - 1 then [i + CW * 4] else []) ++
    ((if 0 < y then [i - CW * 4] else []) ++
      ((if x < CW - 1 then [i + 4] else []) ++
        (if 0 < x then [i - 4] else [])))

/-- Number of unvisited pixels. -/
def unvis (CW CH : ℕ) (visited : ℕ → Bool) : ℕ :=
  ((List.range (CW * CH)).filter (fun j => !visited j)).length

/-- The `while (stack.length)` loop of `floodFill`
(`FileTransfer.tsx` second document, lines 606-617), run on explicit fuel:
`none` means the fuel ran out before the stack was exhausted.  The claim
that the loop terminates is the theorem that fuel `5·CW·CH + 2` always
suffices. -/
def floodLoopF (CW CH : ℕ) (rd : ℕ → ℕ) (tr tg tb ta fr fg fb fa : ℕ) :
    ℕ → (ℕ → Bool) → List ℕ → (ℕ → ℕ) → ℕ → Option ((ℕ → ℕ) × ℕ)
  | 0, _, _, _, _ => none
  | _ + 1, _, [], wd, writes => some (wd, writes)
  | fuel + 1, visited, i :: rest, wd, writes =>
    let pi := i / 4
    if visited pi || !(matchesTarget rd tr tg tb ta i) then
      floodLoopF CW CH rd tr tg tb ta fr fg fb fa fuel visited rest wd writes
    else
      floodLoopF CW CH rd tr tg tb ta fr fg fb fa fuel
        (fun j => if j = pi then true else visited j)
        (nbrs CW CH i ++ rest)
        (fun j => if j = i then fr else if j = i + 1 then fg
          else if j = i + 2 then fb else if j = i + 3 then fa else wd j)
        (writes + 1)

/-- JavaScript `replace(c, empty)` on a single character: removes the first
occurrence only. -/
def removeFirst (c : ℕ) : List ℕ → List ℕ
  | [] => []
  | a :: t => if a = c then t else a :: removeFirst c t

/-- Value of one hexadecimal digit; an invalid digit is NaN in JS, which
the well-formedness hypothesis of the theorems excludes. -/
def hexDigitVal (c : ℕ) : ℕ :=
  if 48 ≤ c ∧ c ≤ 57 then c - 48
  else if 65 ≤ c ∧ c ≤ 70 then c - 55
  else if 97 ≤ c ∧ c ≤ 102 then c - 87
  else 0

/-- `parseInt` of a two-character hex slice (the slice is the first two
entries of the given list). -/
def hexPair (l : List ℕ) : ℕ :=
  hexDigitVal (l.getD 0 0) * 16 + hexDigitVal (l.getD 1 0)

/-- Clamped and rounded seed x coordinate. -/
def seedX (CW : ℕ) (px : ℚ) : ℕ :=
  (jsRound (min (max px 0) ((CW : ℚ) - 1))).toNat

/-- Clamped and rounded seed y coordinate. -/
def seedY (CH : ℕ) (py : ℚ) : ℕ :=
  (jsRound (min (max py 0) ((CH : ℚ) - 1))).toNat

/-- Byte index of the seed pixel. -/
def seedIdx (CW CH : ℕ) (px py : ℚ) : ℕ :=
  (seedY CH py * CW + seedX CW px) * 4

/-- Rounded alpha of the fill colour. -/
def fillA (opacity : ℚ) : ℕ := (jsRound (opacity * 255)).toNat

/-- The source's `floodFill` (second document in `FileTransfer.tsx`,
lines 572-619): reads the seed colour, parses the fill colour, returns
immediately when they are equal, and otherwise runs the stack loop.  The
result is the write image together with the number of pixels filled;
`none` would mean the loop failed to terminate within its fuel. -/
def floodFill (CW CH : ℕ) (rd wd : ℕ → ℕ) (px py : ℚ) (hex : List ℕ)
    (opacity : ℚ) : Option ((ℕ → ℕ) × ℕ) :=
  let i0 := seedIdx CW CH px py
  let h := removeFirst 35 hex
  let fr := hexPair h
  let fg := hexPair (h.drop 2)
  let fb := hexPair (h.drop 4)
  let fa := fillA opacity
  if rd i0 = fr ∧ rd (i0 + 1) = fg ∧ rd (i0 + 2) = fb ∧ rd (i0 + 3) = fa
  then some (wd, 0)
  else floodLoopF CW CH rd (rd i0) (rd (i0 + 1)) (rd (i0 + 2)) (rd (i0 + 3))
    fr fg fb fa (5 * (CW * CH) + 2) (fun _ => false) [i0] wd 0

end PaintEd

namespace Splitter

/-- A JavaScript number in the decimal form JSON serialises it: the value
is `m / 10 ^ e`.  JavaScript doubles are printed by `JSON.stringify` as a
finite decimal, which this pair represents exactly. -/
structure JNum where
  m : ℤ
  e : ℕ
deriving DecidableEq

/-- Rational value of a serialised JavaScript number. -/
def JNum.val (n : JNum) : ℚ := (n.m : ℚ) / ((10 : ℚ) ^ n.e)

/-- Split strategy of an expense. -/
inductive SplitType
| equal
| byDays
deriving DecidableEq

/-- A participant (interface `Person` of `ExpenseSplitter.tsx`). -/
structure Person where
  id : List ℕ
  name : List ℕ
  startDay : JNum
  endDay : JNum
deriving DecidableEq

/-- An expense (interface `Expense` of `ExpenseSplitter.tsx`). -/
structure Expense where
  id : List ℕ
  description : List ℕ
  amount : JNum
  paidBy : List ℕ
  splitType : SplitType
  startDay : JNum
  endDay : JNum
deriving DecidableEq

/-- The splitter's shared state (interface `State`). -/
structure State where
  title : List ℕ
  totalDays : JNum
  people : List Person
  expenses : List Expense
deriving DecidableEq

/-- The source's `overlapDays` (`ExpenseSplitter.tsx`, lines 47-49). -/
def overlapDays (pStart pEnd eStart eEnd : ℚ) : ℚ :=
  max 0 (min pEnd eEnd - max pStart eStart + 1)

/-- Days a person's stay overlaps an expense's day range. -/
def personOverlap (p : Person) (e : Expense) : ℚ :=
  overlapDays p.startDay.val p.endDay.val e.startDay.val e.endDay.val

/-- The `net` debt map of `calcSplits`: its initialised outer keys and the
owed amounts; `f a b` is the amount the person with id `a` owes `b`. -/
structure Net where
  keys : List (List ℕ)
  f : List ℕ → List ℕ → ℚ

/-- People present on at least one day of the expense
(`ExpenseSplitter.tsx`, line 66). -/
def present (people : List Person) (e : Expense) : List Person :=
  people.filter (fun p => decide (0 < personOverlap p e))

/-- One pairwise charge: `net[p][payer] += share; net[payer][p] -= share`. -/
def applyCharge (pid payer : List ℕ) (share : ℚ)
    (f : List ℕ → List ℕ → ℚ) : List ℕ → List ℕ → ℚ :=
  fun a b =>
    if a = pid ∧ b = payer then f a b + share
    else if a = payer ∧ b = pid then f a b - share
    else f a b

/-- One iteration of the per-person loop of `calcSplits`: the payer is
skipped, and writing `net[payer][p.id]` when the payer has no row in the
debt map is the thrown `TypeError`, modelled as `none`. -/
def chargeStep (payer : List ℕ) (keys : List (List ℕ))
    (share : Person → ℚ) (f : List ℕ → List ℕ → ℚ) (p : Person) :
    Option (List ℕ → List ℕ → ℚ) :=
  if p.id = payer then some f
  else if payer ∈ keys then some (applyCharge p.id payer (share p) f)
  else none

/-- Processing of a single expense inside `calcSplits`
(`ExpenseSplitter.tsx`, lines 59-90). -/
def processExpense (people : List Person) (net : Net) (e : Expense) :
    Option Net :=
  let pres := present people e
  if pres = [] then some net
  else
    match e.splitType with
    | .equal =>
      let share : ℚ := e.amount.val / (pres.length : ℚ)
      (pres.foldlM (chargeStep e.paidBy net.keys (fun _ => share)) net.f).map
        (fun f => { net with f := f })
    | .byDays =>
      let tot : ℚ := (pres.map (fun p => personOverlap p e)).sum
      if tot = 0 then some net
      else
        (pres.foldlM (chargeStep e.paidBy net.keys
            (fun p => personOverlap p e / tot * e.amount.val)) net.f).map
          (fun f => { net with f := f })

/-- One settlement row of the `calcSplits` result: the owed amount toward
each id (0 where the JS object has no key). -/
structure Row where
  person : Person
  owes : List ℕ → ℚ
  receives : List ℕ → ℚ

/-- Initial debt map: a zero row for every person id. -/
def initNet (people : List Person) : Net :=
  { keys := people.map Person.id, f := fun _ _ => 0 }

/-- The 0.005 display threshold of `calcSplits`. -/
def threshold : ℚ := 1 / 200

/-- Settlement row built from the final debt map
(`ExpenseSplitter.tsx`, lines 92-101). -/
def mkRow (f : List ℕ → List ℕ → ℚ) (p : Person) : Row :=
  { person := p
    owes := fun q => if threshold < f p.id q then f p.id q else 0
    receives := fun q => if f p.id q < -threshold then -(f p.id q) else 0 }

/-- The source's `calcSplits` (`ExpenseSplitter.tsx`, lines 51-102);
`none` models the `TypeError` thrown when an expense's payer has no row
in the debt map. -/
def calcSplits (s : State) : Option (List Row) :=
  (s.expenses.foldlM (processExpense s.people) (initNet s.people)).map
    (fun net => s.people.map (mkRow net.f))

/-- Closed-form charge of a person with positive overlap, per strategy: an
equal share of the amount over the present people, or a day-weighted
share. -/
def specChargePos (people : List Person) (e : Expense) (p : Person) : ℚ :=
  match e.splitType with
  | .equal => e.amount.val / ((present people e).length : ℚ)
  | .byDays =>
    personOverlap p e /
      ((present people e).map (fun q => personOverlap q e)).sum *
      e.amount.val

/-- Closed-form per-person charge for one expense, as the specification
words it: zero without overlap, an equal share of the amount over the
present people for split type equal, and a day-weighted share for split
type by-days. -/
def specCharge (people : List Person) (e : Expense) (p : Person) : ℚ :=
  if personOverlap p e ≤ 0 then 0 else specChargePos people e p

/-- Antisymmetry of a debt map: what `a` owes `b` is the negative of what
`b` owes `a`. -/
def Antisym (f : List ℕ → List ℕ → ℚ) : Prop := ∀ a b, f a b = -(f b a)

/-- Net effect of one loop iteration of `calcSplits` on a single debt-map
cell. -/
def chargeDelta (payer : List ℕ) (share : Person → ℚ) (q : Person)
    (a b : List ℕ) : ℚ :=
  if q.id = payer then 0
  else if a = q.id ∧ b = payer then share q
  else if a = payer ∧ b = q.id then -(share q)
  else 0

/-- Concrete person with id "A" staying days 1-5. -/
def personA : Person := ⟨[65], [65], ⟨1, 0⟩, ⟨5, 0⟩⟩

/-- Concrete person with id "B" staying days 1-3. -/
def personB : Person := ⟨[66], [66], ⟨1, 0⟩, ⟨3, 0⟩⟩

/-- A state whose expense names no existing person as payer (exactly what
`removePerson` leaves behind when the payer is deleted: `paidBy` becomes
the empty string). -/
def orphanPayerState : State :=
  ⟨[84], ⟨5, 0⟩, [personB],
    [⟨[101], [100], ⟨10, 0⟩, [], .byDays, ⟨1, 0⟩, ⟨5, 0⟩⟩]⟩

/-- A well-formed two-person demo state. -/
def demoState : State := ⟨[84], ⟨5, 0⟩, [personA, personB], []⟩

/-- A day-weighted demo expense paid by person "A" covering days 1-5. -/
def demoExpense : Expense :=
  ⟨[101], [100], ⟨10, 0⟩, [65], .byDays, ⟨1, 0⟩, ⟨5, 0⟩⟩

/-- The settlement rows of the demo state. -/
def demoRows : List Row := (calcSplits demoState).getD []

end Splitter

namespace Enc

/-- Character of the base64 alphabet at index `n < 64`. -/
def b64Char (n : ℕ) : ℕ :=
  if n < 26 then 65 + n
  else if n < 52 then 97 + (n - 26)
  else if n < 62 then 48 + (n - 52)
  else if n = 62 then 43
  else 47

/-- Index of a base64 character; `none` on anything outside the
alphabet. -/
def b64Val (c : ℕ) : Option ℕ :=
  if 65 ≤ c ∧ c ≤ 90 then some (c - 65)
  else if 97 ≤ c ∧ c ≤ 122 then some (c - 97 + 26)
  else if 48 ≤ c ∧ c ≤ 57 then some (c - 48 + 52)
  else if c = 43 then some 62
  else if c = 47 then some 63
  else none

/-- Base64 encoding of a byte list with '=' padding (the body of
`btoa`). -/
def b64Encode : List ℕ → List ℕ
  | [] => []
  | [b0] => [b64Char (b0 / 4), b64Char (b0 % 4 * 16), 61, 61]
  | [b0, b1] => [b64Char (b0 / 4), b64Char (b0 % 4 * 16 + b1 / 16),
      b64Char (b1 % 16 * 4), 61]
  | b0 :: b1 :: b2 :: rest =>
    b64Char (b0 / 4) :: b64Char (b0 % 4 * 16 + b1 / 16) ::
      b64Char (b1 % 16 * 4 + b2 / 64) :: b64Char (b2 % 64) ::
      b64Encode rest

/-- The platform's `btoa`: throws (`none`) when a character of its input
exceeds code point 255, otherwise base64-encodes the bytes. -/
def btoa (s : List ℕ) : Option (List ℕ) :=
  if s.all (fun c => decide (c < 256)) then some (b64Encode s) else none

/-- The platform's `atob`: strict base64 decoding of 4-character groups
with optional final '=' padding. -/
def atob : List ℕ → Option (List ℕ)
  | [] => some []
  | c0 :: c1 :: c2 :: c3 :: rest =>
    if c2 = 61 then
      if c3 = 61 ∧ rest = [] then do
        let v0 ← b64Val c0
        let v1 ← b64Val c1
        pure [v0 * 4 + v1 / 16]
      else none
    else if c3 = 61 then
      if rest = [] then do
        let v0 ← b64Val c0
        let v1 ← b64Val c1
        let v2 ← b64Val c2
        pure [v0 * 4 + v1 / 16, v1 % 16 * 16 + v2 / 4]
      else none
    else do
      let v0 ← b64Val c0
      let v1 ← b64Val c1
      let v2 ← b64Val c2
      let v3 ← b64Val c3
      let tail ← atob rest
      pure ((v0 * 4 + v1 / 16) :: (v1 % 16 * 16 + v2 / 4) ::
        (v2 % 4 * 64 + v3) :: tail)
  | _ => none

/-- A Unicode scalar value (not a lone surrogate, below 0x110000); lone
surrogates make `encodeURIComponent` throw. -/
def ValidScalar (c : ℕ) : Prop := c < 55296 ∨ (57344 ≤ c ∧ c < 1114112)

instance (c : ℕ) : Decidable (ValidScalar c) := by
  unfold ValidScalar
  infer_instance

/-- Uppercase hexadecimal digit, as `encodeURIComponent` emits. -/
def hexUDigit (n : ℕ) : ℕ := if n < 10 then 48 + n else 55 + n

/-- Lowercase hexadecimal digit, as `JSON.stringify` emits in `\u00xx`
escapes. -/
def hexLDigit (n : ℕ) : ℕ := if n < 10 then 48 + n else 87 + n

/-- Value of a hexadecimal digit in either case. -/
def hexVal (c : ℕ) : Option ℕ :=
  if 48 ≤ c ∧ c ≤ 57 then some (c - 48)
  else if 65 ≤ c ∧ c ≤ 70 then some (c - 55)
  else if 97 ≤ c ∧ c ≤ 102 then some (c - 87)
  else none

/-- UTF-8 bytes of a code point. -/
def utf8Bytes (c : ℕ) : List ℕ :=
  if c < 128 then [c]
  else if c < 2048 then [192 + c / 64, 128 + c % 64]
  else if c < 65536 then [224 + c / 4096, 128 + c / 64 % 64, 128 + c % 64]
  else [240 + c / 262144, 128 + c / 4096 % 64, 128 + c / 64 % 64,
    128 + c % 64]

/-- Characters `encodeURIComponent` leaves unescaped. -/
def unreservedURI (c : ℕ) : Bool :=
  decide ((65 ≤ c ∧ c ≤ 90) ∨ (97 ≤ c ∧ c ≤ 122) ∨ (48 ≤ c ∧ c ≤ 57) ∨
    c = 45 ∨ c = 95 ∨ c = 46 ∨ c = 33 ∨ c = 126 ∨ c = 42 ∨ c = 39 ∨
    c = 40 ∨ c = 41)

/-- Percent escape of one byte. -/
def pctBytes (b : ℕ) : List ℕ := [37, hexUDigit (b / 16), hexUDigit (b % 16)]

/-- The platform's `encodeURIComponent`: unreserved characters pass
through, everything else becomes percent-escaped UTF-8; a lone surrogate
throws a URIError (`none`). -/
def encodeURIComponent : List ℕ → Option (List ℕ)
  | [] => some []
  | c :: t => do
    let rest ← encodeURIComponent t
    if unreservedURI c then pure (c :: rest)
    else if ValidScalar c then
      pure (((utf8Bytes c).map pctBytes).flatten ++ rest)
    else none

/-- Continuation-byte test. -/
def contB (b : ℕ) : Bool := decide (128 ≤ b ∧ b < 192)

/-- One lexical token of a percent-escaped string: a character left
as-is, or one byte produced by a `%HH` escape. -/
inductive UTok
| raw (c : ℕ)
| byt (b : ℕ)

/-- Lexing pass of `decodeURIComponent`: each `%HH` escape becomes the
byte it denotes (URIError if a `%` is not followed by two hex digits),
every other character passes through. -/
def unescape : List ℕ → Option (List UTok)
  | [] => some []
  | c :: t =>
    if c = 37 then
      match t with
      | h1 :: h2 :: t1 =>
        match hexVal h1, hexVal h2 with
        | some x1, some x2 =>
          (unescape t1).map (fun r => UTok.byt (x1 * 16 + x2) :: r)
        | _, _ => none
      | _ => none
    else (unescape t).map (fun r => UTok.raw c :: r)

/-- Consume `n` UTF-8 continuation bytes (each must be an escaped byte
in `[0x80, 0xC0)`), extending the partial code point `cp`. -/
def utf8More : ℕ → ℕ → List UTok → Option (ℕ × List UTok)
  | 0, cp, t => some (cp, t)
  | n + 1, cp, t =>
    match t with
    | UTok.byt b :: t2 =>
      if contB b then utf8More n (cp * 64 + (b - 128)) t2 else none
    | _ => none

/-- Fuelled strict UTF-8 decoding of the token stream: escaped bytes
must form valid UTF-8 (no overlong forms, no surrogates, at most
0x10FFFF — expressed by the per-length lower bound together with
`ValidScalar`), unescaped characters pass through. One unit of fuel is
spent per produced code point, so fuel exceeding the token count always
suffices. -/
def utf8DecF : ℕ → List UTok → Option (List ℕ)
  | 0, _ => none
  | _ + 1, [] => some []
  | f + 1, UTok.raw c :: t => (utf8DecF f t).map (fun r => c :: r)
  | f + 1, UTok.byt b0 :: t =>
    if b0 < 128 then (utf8DecF f t).map (fun r => b0 :: r)
    else if b0 < 192 then none
    else if b0 < 224 then
      match utf8More 1 (b0 - 192) t with
      | some (cp, t2) =>
        if 128 ≤ cp ∧ ValidScalar cp then
          (utf8DecF f t2).map (fun r => cp :: r)
        else none
      | none => none
    else if b0 < 240 then
      match utf8More 2 (b0 - 224) t with
      | some (cp, t2) =>
        if 2048 ≤ cp ∧ ValidScalar cp then
          (utf8DecF f t2).map (fun r => cp :: r)
        else none
      | none => none
    else if b0 < 248 then
      match utf8More 3 (b0 - 240) t with
      | some (cp, t2) =>
        if 65536 ≤ cp ∧ ValidScalar cp then
          (utf8DecF f t2).map (fun r => cp :: r)
        else none
      | none => none
    else none

/-- The platform's `decodeURIComponent`: percent escapes must form
strictly valid UTF-8, otherwise a URIError (`none`); other characters
pass through. -/
def decodeURIComponent (l : List ℕ) : Option (List ℕ) :=
  (unescape l).bind (fun ts => utf8DecF (ts.length + 1) ts)

/-- The token stream `unescape` recovers from `encodeURIComponent`
output: unreserved characters stay raw, all others appear as their
escaped UTF-8 bytes. -/
def uriToks (s : List ℕ) : List UTok :=
  (s.map (fun c => if unreservedURI c then [UTok.raw c]
    else (utf8Bytes c).map UTok.byt)).flatten

/-- A JSON value as `JSON.parse` produces it: numbers in the decimal
mantissa/exponent form `JSON.stringify` prints (value m / 10^e), strings
as code-point lists, object fields in order. -/
inductive JVal
| null
| jbool (b : Bool)
| jnum (m : ℤ) (e : ℕ)
| jstr (s : List ℕ)
| jarr (xs : List JVal)
| jobj (fs : List (List ℕ × JVal))

/-- Little-endian decimal digits, by fuelled division (fuel at least the
number suffices). -/
def natDigitsAux : ℕ → ℕ → List ℕ
  | 0, _ => []
  | _ + 1, 0 => []
  | f + 1, n + 1 => (n + 1) % 10 :: natDigitsAux f ((n + 1) / 10)

/-- Decimal digit characters of a natural number, big-endian (empty for
zero). -/
def natDigits (n : ℕ) : List ℕ :=
  ((natDigitsAux n n).reverse.map (fun d => 48 + d))

/-- The decimal form `JSON.stringify` prints for the number m / 10^e. -/
def printNum (m : ℤ) (e : ℕ) : List ℕ :=
  let s := natDigits m.natAbs
  let s2 := List.replicate (e + 1 - s.length) 48 ++ s
  let ip := s2.take (s2.length - e)
  let fp := s2.drop (s2.length - e)
  (if m < 0 then [45] else []) ++ ip ++ (if e = 0 then [] else 46 :: fp)

/-- Escape of one string character, as `JSON.stringify` emits it. -/
def escChar (c : ℕ) : List ℕ :=
  if c = 34 then [92, 34]
  else if c = 92 then [92, 92]
  else if c = 8 then [92, 98]
  else if c = 9 then [92, 116]
  else if c = 10 then [92, 110]
  else if c = 12 then [92, 102]
  else if c = 13 then [92, 114]
  else if c < 32 then [92, 117, 48, 48, hexLDigit (c / 16), hexLDigit (c % 16)]
  else [c]

/-- A JSON string literal. -/
def printStr (s : List ℕ) : List ℕ :=
  34 :: ((s.map escChar).flatten ++ [34])

mutual

/-- `JSON.stringify` (no whitespace, fields in order). -/
def printJ : JVal → List ℕ
  | .null => [110, 117, 108, 108]
  | .jbool true => [116, 114, 117, 101]
  | .jbool false => [102, 97, 108, 115, 101]
  | .jnum m e => printNum m e
  | .jstr s => printStr s
  | .jarr xs => 91 :: (printArr xs ++ [93])
  | .jobj fs => 123 :: (printFields fs ++ [125])

/-- Comma-separated array elements. -/
def printArr : List JVal → List ℕ
  | [] => []
  | [x] => printJ x
  | x :: xs => printJ x ++ (44 :: printArr xs)

/-- Comma-separated `"key":value` fields. -/
def printFields : List (List ℕ × JVal) → List ℕ
  | [] => []
  | [(k, v)] => printStr k ++ (58 :: printJ v)
  | (k, v) :: fs => printStr k ++ (58 :: printJ v) ++ (44 :: printFields fs)

end

mutual

/-- Recursion fuel sufficient to parse a printed value. -/
def needV : JVal → ℕ
  | .jarr xs => 1 + needItems xs
  | .jobj fs => 1 + needFields fs
  | _ => 1

/-- Fuel sufficient to parse printed array elements. -/
def needItems : List JVal → ℕ
  | [] => 1
  | x :: xs => 1 + max (needV x) (needItems xs)

/-- Fuel sufficient to parse printed object fields. -/
def needFields : List (List ℕ × JVal) → ℕ
  | [] => 1
  | (_, v) :: fs => 1 + max (needV v) (needFields fs)

end

/-- JSON whitespace. -/
def wsB (c : ℕ) : Bool :=
  decide (c = 32) || decide (c = 9) || decide (c = 10) || decide (c = 13)

/-- Skip leading whitespace. -/
def skipWs (s : List ℕ) : List ℕ := s.dropWhile wsB

/-- Decimal digit character test. -/
def isDigitB (c : ℕ) : Bool := decide (48 ≤ c ∧ c ≤ 57)

/-- Value of a big-endian list of digit characters. -/
def digitsVal (ds : List ℕ) : ℕ :=
  ds.foldl (fun acc c => acc * 10 + (c - 48)) 0

/-- Sign application of a parsed number. -/
def jsign (neg : Bool) (n : ℕ) : ℤ := if neg then -(n : ℤ) else (n : ℤ)

/-- Number literal munching: optional minus, integer digits, optional
fraction.  (Exponent forms, which `JSON.stringify` emits only for very
large or small magnitudes, are outside this model.) -/
def parseNum (s : List ℕ) : Option (JVal × List ℕ) :=
  let neg : Bool := s.head? = some 45
  let s1 := if neg then s.tail else s
  let ipr := s1.span isDigitB
  if ipr.1 = [] then none
  else if ipr.2.head? = some 46 then
    let fpr := ipr.2.tail.span isDigitB
    if fpr.1 = [] then none
    else some (JVal.jnum (jsign neg (digitsVal (ipr.1 ++ fpr.1))) fpr.1.length,
      fpr.2)
  else some (JVal.jnum (jsign neg (digitsVal ipr.1)) 0, ipr.2)

/-- Four hex digits of a `\u` escape, with the remaining input. -/
def hex4 : List ℕ → Option (ℕ × List ℕ)
  | h1 :: h2 :: h3 :: h4 :: t3 =>
    match hexVal h1, hexVal h2, hexVal h3, hexVal h4 with
    | some x1, some x2, some x3, some x4 =>
      some (x1 * 4096 + x2 * 256 + x3 * 16 + x4, t3)
    | _, _, _, _ => none
  | _ => none

/-- Decode one JSON string escape after the backslash, returning the
character it denotes and the remaining input. -/
def escDecode : List ℕ → Option (ℕ × List ℕ)
  | [] => none
  | e :: t2 =>
    if e = 34 ∨ e = 92 ∨ e = 47 then some (e, t2)
    else if e = 98 then some (8, t2)
    else if e = 102 then some (12, t2)
    else if e = 110 then some (10, t2)
    else if e = 114 then some (13, t2)
    else if e = 116 then some (9, t2)
    else if e = 117 then hex4 t2
    else none

/-- Fuelled string-literal body scan after the opening quote: plain
characters up to the closing quote, with the JSON escapes.  One unit of
fuel is spent per produced character, so fuel exceeding the input length
always suffices. -/
def parseStrBodyF : ℕ → List ℕ → Option (List ℕ × List ℕ)
  | 0, _ => none
  | _ + 1, [] => none
  | f + 1, c :: t =>
    if c = 34 then some ([], t)
    else if c = 92 then
      match escDecode t with
      | some (x, t2) => (parseStrBodyF f t2).map (fun p => (x :: p.1, p.2))
      | none => none
    else if c < 32 then none
    else (parseStrBodyF f t).map (fun p => (c :: p.1, p.2))

/-- String literal body after the opening quote: plain characters up to
the closing quote, with the JSON escapes. -/
def parseStrBody (l : List ℕ) : Option (List ℕ × List ℕ) :=
  parseStrBodyF (l.length + 1) l

mutual

/-- Fueled JSON value parser (`JSON.parse`); each nesting step consumes
one unit of fuel. -/
def parseV : ℕ → List ℕ → Option (JVal × List ℕ)
  | 0, _ => none
  | fuel + 1, s =>
    match skipWs s with
    | [] => none
    | c :: r =>
      if c = 34 then (parseStrBody r).map (fun p => (JVal.jstr p.1, p.2))
      else if c = 91 then
        let r1 := skipWs r
        if r1.head? = some 93 then some (JVal.jarr [], r1.tail)
        else (parseItems fuel r1).map (fun p => (JVal.jarr p.1, p.2))
      else if c = 123 then
        let r1 := skipWs r
        if r1.head? = some 125 then some (JVal.jobj [], r1.tail)
        else (parseFields fuel r1).map (fun p => (JVal.jobj p.1, p.2))
      else if c = 110 then
        match r with
        | 117 :: 108 :: 108 :: r2 => some (JVal.null, r2)
        | _ => none
      else if c = 116 then
        match r with
        | 114 :: 117 :: 101 :: r2 => some (JVal.jbool true, r2)
        | _ => none
      else if c = 102 then
        match r with
        | 97 :: 108 :: 115 :: 101 :: r2 => some (JVal.jbool false, r2)
        | _ => none
      else parseNum (c :: r)

/-- Parse the elements of a nonempty array up to the closing bracket. -/
def parseItems : ℕ → List ℕ → Option (List JVal × List ℕ)
  | 0, _ => none
  | fuel + 1, s => do
    let p ← parseV fuel s
    match skipWs p.2 with
    | 44 :: r3 => (parseItems fuel r3).map (fun q => (p.1 :: q.1, q.2))
    | 93 :: r3 => some ([p.1], r3)
    | _ => none

/-- Parse the fields of a nonempty object up to the closing brace. -/
def parseFields : ℕ → List ℕ → Option (List (List ℕ × JVal) × List ℕ)
  | 0, _ => none
  | fuel + 1, s =>
    match skipWs s with
    | 34 :: r => do
      let k ← parseStrBody r
      match skipWs k.2 with
      | 58 :: r2 => do
        let v ← parseV fuel r2
        match skipWs v.2 with
        | 44 :: r4 =>
          (parseFields fuel r4).map (fun q => ((k.1, v.1) :: q.1, q.2))
        | 125 :: r4 => some ([(k.1, v.1)], r4)
        | _ => none
      | _ => none
    | _ => none

end

/-- `JSON.parse`: parse one value, allow only trailing whitespace. -/
def parseJson (s : List ℕ) : Option JVal :=
  match parseV s.length s with
  | some (j, r) => if skipWs r = [] then some j else none
  | none => none

mutual

/-- Well-formed JSON value: every string is made of Unicode scalar
values.  (`JSON.stringify` escapes lone surrogates; real states satisfy
this.) -/
def JWF : JVal → Prop
  | .null => True
  | .jbool _ => True
  | .jnum _ _ => True
  | .jstr s => ∀ c ∈ s, ValidScalar c
  | .jarr xs => JWFList xs
  | .jobj fs => JWFFields fs

/-- Well-formedness of array elements. -/
def JWFList : List JVal → Prop
  | [] => True
  | x :: xs => JWF x ∧ JWFList xs

/-- Well-formedness of object fields. -/
def JWFFields : List (List ℕ × JVal) → Prop
  | [] => True
  | (k, v) :: fs => (∀ c ∈ k, ValidScalar c) ∧ JWF v ∧ JWFFields fs

end

/-- JSON form of a split strategy. -/
def splitTypeStr : Splitter.SplitType → List ℕ
  | .equal => [101, 113, 117, 97, 108]
  | .byDays => [98, 121, 45, 100, 97, 121, 115]

/-- JSON object of a person, fields in the interface's insertion order:
id, name, startDay, endDay. -/
def personToJson (p : Splitter.Person) : JVal :=
  .jobj [([105, 100], .jstr p.id),
    ([110, 97, 109, 101], .jstr p.name),
    ([115, 116, 97, 114, 116, 68, 97, 121],
      .jnum p.startDay.m p.startDay.e),
    ([101, 110, 100, 68, 97, 121], .jnum p.endDay.m p.endDay.e)]

/-- JSON object of an expense, fields in the interface's insertion order:
id, description, amount, paidBy, splitType, startDay, endDay. -/
def expenseToJson (e : Splitter.Expense) : JVal :=
  .jobj [([105, 100], .jstr e.id),
    ([100, 101, 115, 99, 114, 105, 112, 116, 105, 111, 110],
      .jstr e.description),
    ([97, 109, 111, 117, 110, 116], .jnum e.amount.m e.amount.e),
    ([112, 97, 105, 100, 66, 121], .jstr e.paidBy),
    ([115, 112, 108, 105, 116, 84, 121, 112, 101],
      .jstr (splitTypeStr e.splitType)),
    ([115, 116, 97, 114, 116, 68, 97, 121],
      .jnum e.startDay.m e.startDay.e),
    ([101, 110, 100, 68, 97, 121], .jnum e.endDay.m e.endDay.e)]

/-- JSON object of the splitter state: title, totalDays, people,
expenses. -/
def stateToJson (s : Splitter.State) : JVal :=
  .jobj [([116, 105, 116, 108, 101], .jstr s.title),
    ([116, 111, 116, 97, 108, 68, 97, 121, 115],
      .jnum s.totalDays.m s.totalDays.e),
    ([112, 101, 111, 112, 108, 101], .jarr (s.people.map personToJson)),
    ([101, 120, 112, 101, 110, 115, 101, 115],
      .jarr (s.expenses.map expenseToJson))]

/-- The source's `encodeState` (`ExpenseSplitter.tsx`, lines 35-37):
`btoa(encodeURIComponent(JSON.stringify(state)))`. -/
def encodeState (s : Splitter.State) : Option (List ℕ) :=
  (encodeURIComponent (printJ (stateToJson s))).bind btoa

/-- The source's `decodeState` (`ExpenseSplitter.tsx`, lines 39-45):
`JSON.parse(decodeURIComponent(atob(hash)))` with the try/catch modelled
by the `Option` chain. -/
def decodeState (h : List ℕ) : Option JVal :=
  (atob h).bind (fun b => (decodeURIComponent b).bind parseJson)

/-- The share URL built by `shareUrl` (`ExpenseSplitter.tsx`, lines
213-216): origin, pathname, then the query string `?s=` followed by the
encoded state. -/
def shareUrl (origin pathname : List ℕ) (s : Splitter.State) :
    Option (List ℕ) :=
  (encodeState s).map (fun enc => origin ++ pathname ++ ([63, 115, 61] ++ enc))

/-- A string whose characters are Unicode scalar values. -/
def StrWF (l : List ℕ) : Prop := ∀ c ∈ l, ValidScalar c

/-- Well-formed person strings. -/
def PersonWF (p : Splitter.Person) : Prop := StrWF p.id ∧ StrWF p.name

/-- Well-formed expense strings. -/
def ExpenseWF (e : Splitter.Expense) : Prop :=
  StrWF e.id ∧ StrWF e.description ∧ StrWF e.paidBy

/-- JSON-representable splitter state: all strings are well-formed
Unicode. -/
def StateWF (s : Splitter.State) : Prop :=
  StrWF s.title ∧ (∀ p ∈ s.people, PersonWF p) ∧
    (∀ e ∈ s.expenses, ExpenseWF e)

instance (l : List ℕ) : Decidable (StrWF l) := by
  unfold StrWF
  infer_instance

instance (p : Splitter.Person) : Decidable (PersonWF p) := by
  unfold PersonWF
  infer_instance

instance (e : Splitter.Expense) : Decidable (ExpenseWF e) := by
  unfold ExpenseWF
  infer_instance

instance (s : Splitter.State) : Decidable (StateWF s) := by
  unfold StateWF
  infer_instance

/-- The encoded demo state. -/
def demoEnc : List ℕ := (encodeState Splitter.demoState).getD []

end Enc

namespace UrlLife

/-- Kind of object URL the image converter creates. -/
inductive Kind
| preview
| output
deriving DecidableEq

/-- Object-URL bookkeeping of the image converter widget: the two React
state slots that remember URLs, the list of URLs currently live (created
by `URL.createObjectURL` and not yet revoked), and a counter handing out
fresh URLs. -/
structure WState where
  preview : Option ℕ
  outputUrl : Option ℕ
  live : List (ℕ × Kind)
  next : ℕ
deriving DecidableEq

/-- The object-URL events of the converter. -/
inductive Ev
| load
| convertDone
deriving DecidableEq

/-- Freshly mounted widget: no URLs. -/
def initW : WState := ⟨none, none, [], 0⟩

/-- The source's `loadFile` (`src/unnamed/part_000`, lines 56-69): it sets
`outputUrl` to `null` WITHOUT revoking it and creates a fresh preview URL
without revoking the previous preview. -/
def stepLoad (s : WState) : WState :=
  { preview := some s.next
    outputUrl := none
    live := (s.next, Kind.preview) :: s.live
    next := s.next + 1 }

/-- The `canvas.toBlob` callback of a successful `convert`
(`src/unnamed/part_000`, lines 118-125): revokes the URL recorded in
`outputUrl`, if any, then installs a fresh output URL. -/
def stepConvert (s : WState) : WState :=
  let live1 := match s.outputUrl with
    | some u => s.live.filter (fun x => decide (x.1 ≠ u))
    | none => s.live
  { preview := s.preview
    outputUrl := some s.next
    live := (s.next, Kind.output) :: live1
    next := s.next + 1 }

/-- One widget event. -/
def step (s : WState) : Ev → WState
  | .load => stepLoad s
  | .convertDone => stepConvert s

/-- The widget state reached after a sequence of events. -/
def run (es : List Ev) : WState := es.foldl step initW

/-- Number of live object URLs of a given kind. -/
def liveCount (s : WState) (k : Kind) : ℕ :=
  (s.live.filter (fun x => decide (x.2 = k))).length

/-- Well-formedness of a widget state: live URLs are below the counter,
URL values are unique, and the recorded output URL is live. -/
def WInv (s : WState) : Prop :=
  (∀ p ∈ s.live, p.1 < s.next) ∧
  (s.live.map Prod.fst).Nodup ∧
  (∀ u, s.outputUrl = some u → (u, Kind.output) ∈ s.live)

end UrlLife

namespace Xfer

/-- Messages a sender pushes through the data channel. -/
inductive Msg
| meta (name : List ℕ) (size : ℕ) (mime : List ℕ)
| chunk (bytes : List ℕ)
| done
deriving DecidableEq

/-- Chunks `buf.slice(offset, offset + (c+1))` for offsets 0, c+1,
2(c+1), ... paired with their offsets; the chunk size is `c + 1`, positive
by construction. -/
def slicesFrom (c : ℕ) (buf : List ℕ) (offset : ℕ) : List (ℕ × List ℕ) :=
  if _h : offset < buf.length then
    (offset, (buf.drop offset).take (c + 1)) ::
      slicesFrom c buf (offset + (c + 1))
  else []
termination_by buf.length - offset
decreasing_by
  simp_wf
  omega

/-- Message sequence of `sendFile` (the simple sender in
`FileTransfer.tsx` lines 86-105 with chunk size 65536, and the optimised
sender in `src/unnamed/part_001` with chunk size 262144): one metadata
message, the chunk slices in offset order, then a done marker.  The chunk
size is `c + 1`. -/
def sendFile (c : ℕ) (name mime buf : List ℕ) : List Msg :=
  Msg.meta name buf.length mime ::
    ((slicesFrom c buf 0).map (fun p => Msg.chunk p.2) ++ [Msg.done])

/-- Pause threshold of the optimised sender: 16 MB. -/
def BUFFER_HIGH : ℕ := 16 * 1024 * 1024

/-- Resume threshold of the optimised sender: 4 MB. -/
def BUFFER_LOW : ℕ := 4 * 1024 * 1024

/-- Actions of the optimised sender, including its flow control: setting
`bufferedAmountLowThreshold` and awaiting the `bufferedamountlow`
event. -/
inductive Act
| send (m : Msg)
| setLowThreshold (n : ℕ)
| waitLow
deriving DecidableEq

/-- The optimised sender's chunk loop (`src/unnamed/part_001`, lines
97-113) over a schedule of observed `bufferedAmount` readings (`sched i`
is the reading checked before chunk `i`); a reading above `BUFFER_HIGH`
awaits the buffered-amount-low event before sending.  Progress updates
and `setTimeout` yields touch no channel state and are not modelled. -/
def sendLoopOpt (c : ℕ) (buf : List ℕ) (sched : ℕ → ℕ) (offset i : ℕ) :
    List Act :=
  if _h : offset < buf.length then
    (if BUFFER_HIGH < sched i then [Act.waitLow] else []) ++
      (Act.send (Msg.chunk ((buf.drop offset).take (c + 1))) ::
        sendLoopOpt c buf sched (offset + (c + 1)) (i + 1))
  else []
termination_by buf.length - offset
decreasing_by
  simp_wf
  omega

/-- The optimised `sendFile` trace (`src/unnamed/part_001`, lines
82-117). -/
def sendFileOpt (name mime buf : List ℕ) (sched : ℕ → ℕ) : List Act :=
  Act.send (Msg.meta name buf.length mime) ::
    Act.setLowThreshold BUFFER_LOW ::
    (sendLoopOpt 262143 buf sched 0 0 ++ [Act.send Msg.done])

/-- Spec-side description of the optimised chunk loop: before each chunk,
pause exactly when the observed bufferedAmount exceeds the high threshold,
then send the chunk. -/
def optBody (sched : ℕ → ℕ) : List (ℕ × List ℕ) → ℕ → List Act
  | [], _ => []
  | (_, bs) :: t, i =>
    (if BUFFER_HIGH < sched i then [Act.waitLow] else []) ++
      (Act.send (Msg.chunk bs) :: optBody sched t (i + 1))

/-- Message carried by a send action. -/
def msgOf : Act → Option Msg
  | .send m => some m
  | _ => none

/-- Bytes carried by a chunk message. -/
def chunkBytes : Msg → Option (List ℕ)
  | .chunk b => some b
  | _ => none

end Xfer

end Schlern

namespace Schlern

/-- C5: in the image converter, for positive natural dimensions and positive
requested width and height, resize mode pixels with keep-aspect enabled
yields the non-fixed dimension as the rounded product of the fixed
dimension and the natural aspect quotient, and both target dimensions are
bounded by the requested width and height. -/
theorem convert_pixels_keepAspect (nw nh : ℕ) (w h pct : ℤ)
    (hnw : 0 < nw) (hnh : 0 < nh) (hw : 0 < w) (hh : 0 < h) :
    (((w : ℚ) / (h : ℚ) > (nw : ℚ) / (nh : ℚ) →
        ImageConv.convert nw nh .pixels true w h pct =
          (jsRound ((h : ℚ) * ((nw : ℚ) / (nh : ℚ))), h)) ∧
      ((w : ℚ) / (h : ℚ) ≤ (nw : ℚ) / (nh : ℚ) →
        ImageConv.convert nw nh .pixels true w h pct =
          (w, jsRound ((w : ℚ) / ((nw : ℚ) / (nh : ℚ)))))) ∧
    (ImageConv.convert nw nh .pixels true w h pct).1 ≤ w ∧
    (ImageConv.convert nw nh .pixels true w h pct).2 ≤ h := by
  have hnwQ : (0 : ℚ) < (nw : ℚ) := by exact_mod_cast hnw
  have hnhQ : (0 : ℚ) < (nh : ℚ) := by exact_mod_cast hnh
  have hwQ : (0 : ℚ) < (w : ℚ) := by exact_mod_cast hw
  have hhQ : (0 : ℚ) < (h : ℚ) := by exact_mod_cast hh
  have hr : (0 : ℚ) < (nw : ℚ) / (nh : ℚ) := div_pos hnwQ hnhQ
  constructor
  · constructor
    · intro hgt
      simp only [ImageConv.convert, if_pos hgt, if_true]
    · intro hle
      simp only [ImageConv.convert, if_neg (not_lt.mpr hle), if_true]
  · by_cases hgt : (w : ℚ) / (h : ℚ) > (nw : ℚ) / (nh : ℚ)
    · simp only [ImageConv.convert, if_pos hgt, if_true]
      refine ⟨?_, le_refl h⟩
      -- h * r < w, hence the rounded value is at most w
      have h1 : (nw : ℚ) * (h : ℚ) < (w : ℚ) * (nh : ℚ) :=
        (div_lt_div_iff₀ hnhQ hhQ).mp hgt
      have hlt : (h : ℚ) * ((nw : ℚ) / (nh : ℚ)) < (w : ℚ) := by
        rw [mul_div_assoc', div_lt_iff₀ hnhQ]
        linarith
      have hfl : jsRound ((h : ℚ) * ((nw : ℚ) / (nh : ℚ))) < w + 1 := by
        apply Int.floor_lt.mpr
        push_cast
        linarith
      omega
    · simp only [ImageConv.convert, if_neg hgt, if_true]
      refine ⟨le_refl w, ?_⟩
      have hle2 : (w : ℚ) * (nh : ℚ) ≤ (nw : ℚ) * (h : ℚ) :=
        (div_le_div_iff₀ hhQ hnhQ).mp (not_lt.mp hgt)
      have hle : (w : ℚ) / ((nw : ℚ) / (nh : ℚ)) ≤ (h : ℚ) := by
        rw [div_le_iff₀ hr, mul_div_assoc', le_div_iff₀ hnhQ]
        linarith
      have hfl : jsRound ((w : ℚ) / ((nw : ℚ) / (nh : ℚ))) < h + 1 := by
        apply Int.floor_lt.mpr
        push_cast
        linarith
      omega

/-- Witness for C5: a concrete instantiation of
`convert_pixels_keepAspect`. -/
theorem convert_pixels_keepAspect_witness :
    (((100 : ℚ) / (50 : ℚ) > (400 : ℕ) / ((300 : ℕ) : ℚ) →
        ImageConv.convert 400 300 .pixels true 100 50 0 =
          (jsRound ((50 : ℚ) * (((400 : ℕ) : ℚ) / ((300 : ℕ) : ℚ))), 50)) ∧
      ((100 : ℚ) / (50 : ℚ) ≤ ((400 : ℕ) : ℚ) / ((300 : ℕ) : ℚ) →
        ImageConv.convert 400 300 .pixels true 100 50 0 =
          (100, jsRound ((100 : ℚ) / (((400 : ℕ) : ℚ) / ((300 : ℕ) : ℚ)))))) ∧
    (ImageConv.convert 400 300 .pixels true 100 50 0).1 ≤ 100 ∧
    (ImageConv.convert 400 300 .pixels true 100 50 0).2 ≤ 50 :=
  convert_pixels_keepAspect 400 300 100 50 0 (by decide) (by decide)
    (by decide) (by decide)

/-- Closed form of `normBounds` on non-line objects. -/
theorem normBounds_of_not_line (o : PaintEd.PaintObj)
    (h : o.type ≠ .line) :
    PaintEd.normBounds o =
      { o with
        x := if o.w < 0 then o.x + o.w else o.x
        w := if o.w < 0 then -o.w else o.w
        y := if o.h < 0 then o.y + o.h else o.y
        h := if o.h < 0 then -o.h else o.h } := by
  by_cases hw : o.w < 0 <;> by_cases hh : o.h < 0 <;>
    simp [PaintEd.normBounds, h, hw, hh]

/-- C10: the paint editor's `normBounds` is idempotent, leaves line objects
unchanged, and on non-line objects establishes nonnegative width and height
while preserving the corner coordinate sets on each axis. -/
theorem normBounds_spec (o : PaintEd.PaintObj) :
    PaintEd.normBounds (PaintEd.normBounds o) = PaintEd.normBounds o ∧
    (o.type = .line → PaintEd.normBounds o = o) ∧
    (o.type ≠ .line →
      0 ≤ (PaintEd.normBounds o).w ∧ 0 ≤ (PaintEd.normBounds o).h ∧
      ({(PaintEd.normBounds o).x,
        (PaintEd.normBounds o).x + (PaintEd.normBounds o).w} : Set ℚ) =
        {o.x, o.x + o.w} ∧
      ({(PaintEd.normBounds o).y,
        (PaintEd.normBounds o).y + (PaintEd.normBounds o).h} : Set ℚ) =
        {o.y, o.y + o.h}) := by
  by_cases hline : o.type = .line
  · simp [PaintEd.normBounds, hline]
  · have hnb := normBounds_of_not_line o hline
    have hnt : (PaintEd.normBounds o).type ≠ .line := by
      rw [hnb]
      exact hline
    refine ⟨?_, fun hcon => absurd hcon hline, fun _ => ?_⟩
    · rw [normBounds_of_not_line _ hnt]
      rw [hnb]
      by_cases hw : o.w < 0 <;> by_cases hh : o.h < 0
      · have hw2 : ¬(-o.w < 0) := by linarith
        have hh2 : ¬(-o.h < 0) := by linarith
        simp [hw, hh, hw2, hh2]
      · have hw2 : ¬(-o.w < 0) := by linarith
        simp [hw, hh, hw2]
      · have hh2 : ¬(-o.h < 0) := by linarith
        simp [hw, hh, hh2]
      · simp [hw, hh]
    · rw [hnb]
      have hxset : o.w < 0 →
          ({o.x + o.w, o.x + o.w + -o.w} : Set ℚ) = {o.x, o.x + o.w} := by
        intro _
        have harith : o.x + o.w + -o.w = o.x := by ring
        rw [harith, Set.pair_comm]
      have hyset : o.h < 0 →
          ({o.y + o.h, o.y + o.h + -o.h} : Set ℚ) = {o.y, o.y + o.h} := by
        intro _
        have harith : o.y + o.h + -o.h = o.y := by ring
        rw [harith, Set.pair_comm]
      by_cases hw : o.w < 0 <;> by_cases hh : o.h < 0
      · simp only [hw, hh, ite_true]
        exact ⟨by linarith, by linarith, hxset hw, hyset hh⟩
      · simp only [hw, hh, ite_true, ite_false]
        exact ⟨by linarith, not_lt.mp hh, hxset hw, trivial⟩
      · simp only [hw, hh, ite_true, ite_false]
        exact ⟨not_lt.mp hw, by linarith, trivial, hyset hh⟩
      · simp only [hw, hh, ite_false]
        exact ⟨not_lt.mp hw, not_lt.mp hh, trivial, trivial⟩

theorem normBounds_spec_witness :
    PaintEd.normBounds (PaintEd.normBounds
      ⟨[], [], PaintEd.ObjType.rect, 3, 4, -2, -5, 1, none⟩) =
      PaintEd.normBounds
        ⟨[], [], PaintEd.ObjType.rect, 3, 4, -2, -5, 1, none⟩ ∧
    0 ≤ (PaintEd.normBounds
      ⟨[], [], PaintEd.ObjType.rect, 3, 4, -2, -5, 1, none⟩).w ∧
    0 ≤ (PaintEd.normBounds
      ⟨[], [], PaintEd.ObjType.rect, 3, 4, -2, -5, 1, none⟩).h := by
  have h := normBounds_spec
    ⟨[], [], PaintEd.ObjType.rect, 3, 4, -2, -5, 1, none⟩
  exact ⟨h.1, (h.2.2 (by decide)).1, (h.2.2 (by decide)).2.1⟩

namespace PaintEd

theorem filter_update_length (v : ℕ → Bool) (pi : ℕ) :
    ∀ (l : List ℕ), l.Nodup → pi ∈ l → v pi = false →
      (l.filter (fun j => !(if j = pi then true else v j))).length + 1 =
        (l.filter (fun j => !v j)).length := by
  intro l
  induction l with
  | nil =>
    intro _ hm
    cases hm
  | cons a t ih =>
    intro hnd hm hv
    obtain ⟨hat, hndt⟩ := List.nodup_cons.mp hnd
    by_cases hap : a = pi
    · subst hap
      rw [List.filter_cons_of_neg (by simp)]
      rw [List.filter_cons_of_pos (by simp [hv])]
      have ht : t.filter (fun j => !(if j = a then true else v j)) =
          t.filter (fun j => !v j) := by
        apply List.filter_congr
        intro x hx
        have hxa : x ≠ a := fun hcon => hat (hcon ▸ hx)
        simp [hxa]
      rw [ht]
      simp
    · have hmt : pi ∈ t := by
        rcases List.mem_cons.mp hm with h | h
        · exact absurd h.symm hap
        · exact h
      cases hva : v a with
      | false =>
        rw [List.filter_cons_of_pos (by simp [hap, hva]),
          List.filter_cons_of_pos (by simp [hva])]
        simp only [List.length_cons]
        have := ih hndt hmt hv
        omega
      | true =>
        rw [List.filter_cons_of_neg (by simp [hap, hva]),
          List.filter_cons_of_neg (by simp [hva])]
        exact ih hndt hmt hv

theorem unvis_update (CW CH : ℕ) (visited : ℕ → Bool) (pi : ℕ)
    (hlt : pi < CW * CH) (hv : visited pi = false) :
    unvis CW CH (fun j => if j = pi then true else visited j) + 1 =
      unvis CW CH visited :=
  filter_update_length visited pi (List.range (CW * CH))
    (List.nodup_range (CW * CH)) (List.mem_range.mpr hlt) hv

theorem unvis_const_false (CW CH : ℕ) :
    unvis CW CH (fun _ => false) = CW * CH := by
  simp [unvis]

theorem nbrs_len_le (CW CH i : ℕ) : (nbrs CW CH i).length ≤ 4 := by
  simp only [nbrs]
  split_ifs <;> simp

theorem nbrs_bounds (CW CH i : ℕ) (h4 : i % 4 = 0)
    (hlt : i / 4 < CW * CH) :
    ∀ j ∈ nbrs CW CH i, j % 4 = 0 ∧ j / 4 < CW * CH := by
  intro j hj
  have hCW : 0 < CW := by
    rcases Nat.eq_zero_or_pos CW with h | h
    · rw [h, Nat.zero_mul] at hlt
      exact absurd hlt (Nat.not_lt_zero _)
    · exact h
  have hCH : 0 < CH := by
    rcases Nat.eq_zero_or_pos CH with h | h
    · rw [h, Nat.mul_zero] at hlt
      exact absurd hlt (Nat.not_lt_zero _)
    · exact h
  set pi := i / 4 with hpidef
  have hi : i = 4 * pi := by omega
  set x := pi % CW with hxdef
  set y := pi / CW with hydef
  have hde : CW * y + x = pi := Nat.div_add_mod pi CW
  have hxlt : x < CW := Nat.mod_lt pi hCW
  have hylt : y < CH := by
    rw [hydef, Nat.div_lt_iff_lt_mul hCW]
    calc pi < CW * CH := hlt
    _ = CH * CW := Nat.mul_comm _ _
  simp only [nbrs, List.mem_append] at hj
  rcases hj with hj | hj | hj | hj
  · by_cases hc : y < CH - 1
    · rw [if_pos hc] at hj
      simp only [List.mem_singleton] at hj
      subst hj
      refine ⟨by omega, ?_⟩
      have hdiv : (i + CW * 4) / 4 = pi + CW := by omega
      rw [hdiv]
      obtain ⟨ch, rfl⟩ : ∃ ch, CH = ch + 1 := ⟨CH - 1, by omega⟩
      have hm2 : CW * (y + 2) ≤ CW * (ch + 1) :=
        Nat.mul_le_mul_left CW (by omega)
      have hexp2 : CW * (y + 2) = CW * y + CW + CW := by ring
      linarith [hde, hxlt, hm2, hexp2]
    · rw [if_neg hc] at hj
      cases hj
  · by_cases hc : 0 < y
    · rw [if_pos hc] at hj
      simp only [List.mem_singleton] at hj
      subst hj
      have hm1 : CW * 1 ≤ CW * y := Nat.mul_le_mul_left CW hc
      have hmul1 : CW * 1 = CW := Nat.mul_one CW
      have hge : CW ≤ pi := by linarith [hde, Nat.zero_le x]
      refine ⟨by omega, ?_⟩
      have hdiv : (i - CW * 4) / 4 = pi - CW := by omega
      rw [hdiv]
      have hsub : pi - CW ≤ pi := Nat.sub_le _ _
      have := hlt
      omega
    · rw [if_neg hc] at hj
      cases hj
  · by_cases hc : x < CW - 1
    · rw [if_pos hc] at hj
      simp only [List.mem_singleton] at hj
      subst hj
      refine ⟨by omega, ?_⟩
      have hdiv : (i + 4) / 4 = pi + 1 := by omega
      rw [hdiv]
      have hm : CW * (y + 1) ≤ CW * CH := Nat.mul_le_mul_left CW (by omega)
      have hexp : CW * (y + 1) = CW * y + CW := by ring
      have hx1 : x + 1 < CW := by omega
      linarith [hde, hm, hexp]
    · rw [if_neg hc] at hj
      cases hj
  · by_cases hc : 0 < x
    · rw [if_pos hc] at hj
      simp only [List.mem_singleton] at hj
      subst hj
      have hpi1 : 1 ≤ pi := by linarith [hde, hc, Nat.zero_le (CW * y)]
      refine ⟨by omega, ?_⟩
      have hdiv : (i - 4) / 4 = pi - 1 := by omega
      rw [hdiv]
      have hsub : pi - 1 ≤ pi := Nat.sub_le _ _
      have := hlt
      omega
    · rw [if_neg hc] at hj
      cases hj

theorem floodLoopF_enough (CW CH : ℕ) (rd : ℕ → ℕ)
    (tr tg tb ta fr fg fb fa : ℕ) :
    ∀ (fuel : ℕ) (visited : ℕ → Bool) (stack : List ℕ) (wd : ℕ → ℕ)
      (writes : ℕ),
      (∀ j ∈ stack, j % 4 = 0 ∧ j / 4 < CW * CH) →
      5 * unvis CW CH visited + stack.length < fuel →
      ∃ r, floodLoopF CW CH rd tr tg tb ta fr fg fb fa fuel visited stack
          wd writes = some r ∧ r.2 ≤ writes + unvis CW CH visited := by
  intro fuel
  induction fuel with
  | zero =>
    intro visited stack wd writes _ hm
    exact absurd hm (Nat.not_lt_zero _)
  | succ fuel ih =>
    intro visited stack wd writes hinv hmeas
    cases stack with
    | nil => exact ⟨(wd, writes), rfl, by omega⟩
    | cons i rest =>
      simp only [floodLoopF]
      by_cases hskip :
          (visited (i / 4) || !(matchesTarget rd tr tg tb ta i)) = true
      · rw [if_pos hskip]
        apply ih visited rest wd writes
          (fun j hj => hinv j (List.mem_cons_of_mem i hj))
        simp only [List.length_cons] at hmeas
        omega
      · rw [if_neg hskip]
        have hvp : visited (i / 4) = false := by
          cases h2 : visited (i / 4)
          · rfl
          · exact absurd (by simp [h2]) hskip
        obtain ⟨hj4, hjlt⟩ := hinv i (List.mem_cons_self i rest)
        have hu := unvis_update CW CH visited (i / 4) hjlt hvp
        have hnb := nbrs_bounds CW CH i hj4 hjlt
        have hnl := nbrs_len_le CW CH i
        have hinv2 : ∀ j ∈ nbrs CW CH i ++ rest,
            j % 4 = 0 ∧ j / 4 < CW * CH := by
          intro j hj
          rcases List.mem_append.mp hj with hj | hj
          · exact hnb j hj
          · exact hinv j (List.mem_cons_of_mem i hj)
        have hmeas2 : 5 * unvis CW CH
            (fun j => if j = i / 4 then true else visited j) +
            (nbrs CW CH i ++ rest).length < fuel := by
          simp only [List.length_append, List.length_cons] at hmeas ⊢
          omega
        obtain ⟨r, hr, hb⟩ := ih _ _
          (fun j => if j = i then fr else if j = i + 1 then fg
            else if j = i + 2 then fb else if j = i + 3 then fa else wd j)
          (writes + 1) hinv2 hmeas2
        exact ⟨r, hr, by omega⟩

theorem seedX_lt (CW : ℕ) (hCW : 1 ≤ CW) (px : ℚ) : seedX CW px < CW := by
  have hcw : (1 : ℚ) ≤ (CW : ℚ) := by exact_mod_cast hCW
  have h0 : (0 : ℚ) ≤ min (max px 0) ((CW : ℚ) - 1) :=
    le_min (le_max_right px 0) (by linarith)
  have h1 : min (max px 0) ((CW : ℚ) - 1) ≤ (CW : ℚ) - 1 := min_le_right _ _
  have hr0 : 0 ≤ jsRound (min (max px 0) ((CW : ℚ) - 1)) := by
    unfold jsRound
    apply Int.floor_nonneg.mpr
    linarith
  have hr1 : jsRound (min (max px 0) ((CW : ℚ) - 1)) < (CW : ℤ) := by
    unfold jsRound
    apply Int.floor_lt.mpr
    push_cast
    linarith
  unfold seedX
  omega

theorem seedY_lt (CH : ℕ) (hCH : 1 ≤ CH) (py : ℚ) : seedY CH py < CH := by
  have hch : (1 : ℚ) ≤ (CH : ℚ) := by exact_mod_cast hCH
  have h0 : (0 : ℚ) ≤ min (max py 0) ((CH : ℚ) - 1) :=
    le_min (le_max_right py 0) (by linarith)
  have h1 : min (max py 0) ((CH : ℚ) - 1) ≤ (CH : ℚ) - 1 := min_le_right _ _
  have hr0 : 0 ≤ jsRound (min (max py 0) ((CH : ℚ) - 1)) := by
    unfold jsRound
    apply Int.floor_nonneg.mpr
    linarith
  have hr1 : jsRound (min (max py 0) ((CH : ℚ) - 1)) < (CH : ℤ) := by
    unfold jsRound
    apply Int.floor_lt.mpr
    push_cast
    linarith
  unfold seedY
  omega

theorem seedIdx_ok (CW CH : ℕ) (hCW : 1 ≤ CW) (hCH : 1 ≤ CH)
    (px py : ℚ) :
    seedIdx CW CH px py % 4 = 0 ∧ seedIdx CW CH px py / 4 < CW * CH := by
  have hx := seedX_lt CW hCW px
  have hy := seedY_lt CH hCH py
  constructor
  · simp [seedIdx, Nat.mul_mod_left]
  · have hdiv : seedIdx CW CH px py / 4 = seedY CH py * CW + seedX CW px :=
      Nat.mul_div_cancel _ (by norm_num)
    rw [hdiv]
    have hexp : (seedY CH py + 1) * CW = seedY CH py * CW + CW := by ring
    have h2 : (seedY CH py + 1) * CW ≤ CH * CW :=
      Nat.mul_le_mul_right CW (by omega)
    have h3 : CH * CW = CW * CH := Nat.mul_comm _ _
    linarith

end PaintEd

namespace Splitter

theorem sum_map_add {α : Type} (l : List α) (f g : α → ℚ) :
    (l.map (fun x => f x + g x)).sum = (l.map f).sum + (l.map g).sum := by
  induction l with
  | nil => simp
  | cons a t ih =>
    simp only [List.map_cons, List.sum_cons, ih]
    ring

theorem sum_map_sub {α : Type} (l : List α) (f g : α → ℚ) :
    (l.map (fun x => f x - g x)).sum = (l.map f).sum - (l.map g).sum := by
  induction l with
  | nil => simp
  | cons a t ih =>
    simp only [List.map_cons, List.sum_cons, ih]
    ring

theorem sum_map_zero_of_all {α : Type} (l : List α) (f : α → ℚ)
    (h : ∀ x ∈ l, f x = 0) : (l.map f).sum = 0 := by
  induction l with
  | nil => simp
  | cons a t ih =>
    simp only [List.map_cons, List.sum_cons]
    rw [h a (List.mem_cons_self a t), ih (fun x hx => h x (List.mem_cons_of_mem a hx))]
    ring

/-- A double sum of an antisymmetric kernel over the same list vanishes. -/
theorem sum_sum_antisym {α : Type} (l : List α) (g : α → α → ℚ)
    (hg : ∀ a b, g a b = -(g b a)) :
    (l.map (fun p => (l.map (g p)).sum)).sum = 0 := by
  induction l with
  | nil => simp
  | cons a t ih =>
    simp only [List.map_cons, List.sum_cons]
    rw [sum_map_add t (fun p => g p a) (fun p => (t.map (g p)).sum), ih]
    have haa : g a a = 0 := by
      have := hg a a
      linarith
    have hcross : (t.map (g a)).sum + (t.map (fun p => g p a)).sum = 0 := by
      rw [← sum_map_add t (g a) (fun p => g p a)]
      apply sum_map_zero_of_all
      intro x _
      have := hg a x
      linarith
    linarith

/-- Folding a fallible step preserves any invariant the step preserves. -/
theorem foldlM_preserve {α β : Type} (P : β → Prop) (step : β → α → Option β)
    (hstep : ∀ b a b', P b → step b a = some b' → P b') :
    ∀ (l : List α) (b b' : β), P b → l.foldlM step b = some b' → P b' := by
  intro l
  induction l with
  | nil =>
    intro b b' hb h
    simp only [List.foldlM_nil] at h
    cases h
    exact hb
  | cons a t ih =>
    intro b b' hb h
    rw [List.foldlM_cons] at h
    cases hsb : step b a with
    | none => rw [hsb] at h; cases h
    | some b2 =>
      rw [hsb] at h
      exact ih b2 b' (hstep b a b2 hb hsb) h

theorem antisym_applyCharge (f : List ℕ → List ℕ → ℚ) (pid payer : List ℕ)
    (share : ℚ) (hf : Antisym f) (hne : pid ≠ payer) :
    Antisym (applyCharge pid payer share f) := by
  intro a b
  simp only [applyCharge]
  by_cases hc1 : a = pid ∧ b = payer
  · rw [if_pos hc1]
    have hd1 : ¬(b = pid ∧ a = payer) := by
      rintro ⟨-, hap⟩
      exact hne (hc1.1.symm.trans hap)
    have hd2 : b = payer ∧ a = pid := ⟨hc1.2, hc1.1⟩
    rw [if_neg hd1, if_pos hd2, hf a b]
    ring
  · by_cases hc2 : a = payer ∧ b = pid
    · rw [if_neg hc1, if_pos hc2]
      have hd1 : b = pid ∧ a = payer := ⟨hc2.2, hc2.1⟩
      rw [if_pos hd1, hf a b]
      ring
    · rw [if_neg hc1, if_neg hc2]
      have hd1 : ¬(b = pid ∧ a = payer) := fun hx => hc2 ⟨hx.2, hx.1⟩
      have hd2 : ¬(b = payer ∧ a = pid) := fun hx => hc1 ⟨hx.2, hx.1⟩
      rw [if_neg hd1, if_neg hd2]
      exact hf a b

theorem antisym_chargeStep (payer : List ℕ) (keys : List (List ℕ))
    (share : Person → ℚ) (f f' : List ℕ → List ℕ → ℚ) (p : Person)
    (hf : Antisym f) (h : chargeStep payer keys share f p = some f') :
    Antisym f' := by
  unfold chargeStep at h
  by_cases h1 : p.id = payer
  · rw [if_pos h1] at h
    cases h
    exact hf
  · rw [if_neg h1] at h
    by_cases h2 : payer ∈ keys
    · rw [if_pos h2] at h
      cases h
      exact antisym_applyCharge f p.id payer (share p) hf h1
    · rw [if_neg h2] at h
      cases h

theorem antisym_processExpense (people : List Person) (e : Expense)
    (net net' : Net) (hf : Antisym net.f)
    (h : processExpense people net e = some net') : Antisym net'.f := by
  unfold processExpense at h
  by_cases hpres : present people e = []
  · rw [if_pos hpres] at h
    cases h
    exact hf
  · rw [if_neg hpres] at h
    cases hsplit : e.splitType with
    | equal =>
      rw [hsplit] at h
      obtain ⟨f', hfold, rfl⟩ := Option.map_eq_some'.mp h
      exact foldlM_preserve Antisym _
        (fun b a b' hb hs => antisym_chargeStep _ _ _ b b' a hb hs)
        (present people e) net.f f' hf hfold
    | byDays =>
      rw [hsplit] at h
      simp only at h
      by_cases htot : ((present people e).map (fun p => personOverlap p e)).sum = 0
      · rw [if_pos htot] at h
        cases h
        exact hf
      · rw [if_neg htot] at h
        obtain ⟨f', hfold, rfl⟩ := Option.map_eq_some'.mp h
        exact foldlM_preserve Antisym _
          (fun b a b' hb hs => antisym_chargeStep _ _ _ b b' a hb hs)
          (present people e) net.f f' hf hfold

theorem calcSplits_inverted (s : State) (r : List Row)
    (h : calcSplits s = some r) :
    ∃ net, s.expenses.foldlM (processExpense s.people) (initNet s.people) =
        some net ∧ r = s.people.map (mkRow net.f) ∧ Antisym net.f := by
  unfold calcSplits at h
  obtain ⟨net, hnet, hr⟩ := Option.map_eq_some'.mp h
  refine ⟨net, hnet, hr.symm, ?_⟩
  refine foldlM_preserve (fun n => Antisym n.f) (processExpense s.people)
    ?_ s.expenses (initNet s.people) net ?_ hnet
  · intro b a b' hb hs
    exact antisym_processExpense s.people a b b' hb hs
  · intro a b
    simp [initNet]

theorem mkRow_pairwise (f : List ℕ → List ℕ → ℚ) (hf : Antisym f)
    (p q : Person) : (mkRow f p).owes q.id = (mkRow f q).receives p.id := by
  simp only [mkRow]
  have hqp : f q.id p.id = -(f p.id q.id) := hf q.id p.id
  by_cases h1 : threshold < f p.id q.id
  · rw [if_pos h1]
    have h2 : f q.id p.id < -threshold := by
      rw [hqp]
      linarith
    rw [if_pos h2, hqp]
    ring
  · rw [if_neg h1]
    have h2 : ¬(f q.id p.id < -threshold) := by
      rw [hqp]
      intro hcon
      exact h1 (by linarith)
    rw [if_neg h2]

theorem mkRow_net_antisym (f : List ℕ → List ℕ → ℚ) (hf : Antisym f)
    (p q : Person) :
    ((mkRow f p).owes q.id - (mkRow f p).receives q.id) =
      -((mkRow f q).owes p.id - (mkRow f q).receives p.id) := by
  simp only [mkRow]
  have hqp : f q.id p.id = -(f p.id q.id) := hf q.id p.id
  have hth : (0 : ℚ) < threshold := by norm_num [threshold]
  by_cases h1 : threshold < f p.id q.id
  · have h2 : ¬(f p.id q.id < -threshold) := by
      intro hcon
      linarith
    have h3 : ¬(threshold < f q.id p.id) := by
      rw [hqp]
      intro hcon
      linarith
    have h4 : f q.id p.id < -threshold := by
      rw [hqp]
      linarith
    rw [if_pos h1, if_neg h2, if_neg h3, if_pos h4, hqp]
    ring
  · by_cases h2 : f p.id q.id < -threshold
    · have h3 : threshold < f q.id p.id := by
        rw [hqp]
        linarith
      have h4 : ¬(f q.id p.id < -threshold) := by
        rw [hqp]
        intro hcon
        linarith
      rw [if_neg h1, if_pos h2, if_pos h3, if_neg h4, hqp]
      ring
    · have h3 : ¬(threshold < f q.id p.id) := by
        rw [hqp]
        intro hcon
        exact h2 (by linarith)
      have h4 : ¬(f q.id p.id < -threshold) := by
        rw [hqp]
        intro hcon
        exact h1 (by linarith)
      rw [if_neg h1, if_neg h2, if_neg h3, if_neg h4]
      ring

end Splitter

namespace Splitter

/-- Folding the per-person charge loop succeeds when the payer has a row,
and changes every cell by the summed per-person deltas. -/
theorem foldlM_chargeStep_eq (payer : List ℕ) (keys : List (List ℕ))
    (share : Person → ℚ) (hkey : payer ∈ keys) :
    ∀ (pres : List Person) (f : List ℕ → List ℕ → ℚ),
      ∃ f', pres.foldlM (chargeStep payer keys share) f = some f' ∧
        ∀ a b, f' a b =
          f a b + ((pres.map (fun q => chargeDelta payer share q a b)).sum) := by
  intro pres
  induction pres with
  | nil =>
    intro f
    refine ⟨f, rfl, ?_⟩
    intro a b
    simp
  | cons q t ih =>
    intro f
    by_cases h1 : q.id = payer
    · obtain ⟨f', hfold, hval⟩ := ih f
      refine ⟨f', ?_, ?_⟩
      · rw [List.foldlM_cons]
        simp only [chargeStep, if_pos h1]
        exact hfold
      · intro a b
        rw [hval a b]
        have hd : chargeDelta payer share q a b = 0 := by
          simp [chargeDelta, h1]
        simp [hd]
    · obtain ⟨f', hfold, hval⟩ := ih (applyCharge q.id payer (share q) f)
      refine ⟨f', ?_, ?_⟩
      · rw [List.foldlM_cons]
        simp only [chargeStep, if_neg h1, if_pos hkey]
        exact hfold
      · intro a b
        rw [hval a b]
        simp only [List.map_cons, List.sum_cons, applyCharge, chargeDelta,
          if_neg h1]
        by_cases hc1 : a = q.id ∧ b = payer
        · rw [if_pos hc1, if_pos hc1]
          ring
        · rw [if_neg hc1, if_neg hc1]
          by_cases hc2 : a = payer ∧ b = q.id
          · rw [if_pos hc2, if_pos hc2]
            ring
          · rw [if_neg hc2, if_neg hc2]
            ring

/-- Summing a share over those filtered people that carry a given id picks
out exactly that person's share, when ids are unique. -/
theorem sum_filter_ite_id (pred : Person → Bool) (share : Person → ℚ)
    (p : Person) :
    ∀ (people : List Person), (people.map Person.id).Nodup → p ∈ people →
      ((people.filter pred).map
          (fun q => if q.id = p.id then share q else 0)).sum =
        if p ∈ people.filter pred then share p else 0 := by
  intro people
  induction people with
  | nil =>
    intro _ hp
    cases hp
  | cons a t ih =>
    intro hnd hp
    simp only [List.map_cons, List.nodup_cons] at hnd
    obtain ⟨haid, hndt⟩ := hnd
    rcases List.mem_cons.mp hp with rfl | hpt
    · have hzero : ((t.filter pred).map
          (fun q => if q.id = p.id then share q else 0)).sum = 0 := by
        apply sum_map_zero_of_all
        intro q hq
        have hqt : q ∈ t := (List.mem_filter.mp hq).1
        have hne : q.id ≠ p.id := by
          intro hcon
          exact haid (hcon ▸ List.mem_map_of_mem Person.id hqt)
        simp [hne]
      by_cases hpa : pred p = true
      · rw [List.filter_cons_of_pos hpa]
        simp only [List.map_cons, List.sum_cons, if_pos rfl]
        rw [hzero]
        simp
      · rw [List.filter_cons_of_neg hpa]
        rw [hzero]
        have hmem : p ∉ t.filter pred := by
          intro hcon
          exact haid (List.mem_map_of_mem Person.id (List.mem_filter.mp hcon).1)
        rw [if_neg hmem]
    · have hpid : a.id ≠ p.id := by
        intro hcon
        exact haid (hcon ▸ List.mem_map_of_mem Person.id hpt)
      by_cases hpa : pred a = true
      · rw [List.filter_cons_of_pos hpa]
        simp only [List.map_cons, List.sum_cons, if_neg hpid]
        rw [ih hndt hpt]
        have hiff : (p ∈ a :: t.filter pred) ↔ (p ∈ t.filter pred) := by
          constructor
          · intro hcon
            rcases List.mem_cons.mp hcon with rfl | hmem
            · exact absurd rfl hpid
            · exact hmem
          · exact fun hmem => List.mem_cons_of_mem a hmem
        rw [if_congr hiff rfl rfl]
        ring
      · rw [List.filter_cons_of_neg hpa]
        exact ih hndt hpt

/-- Membership in `present` unfolds to a positive overlap. -/
theorem mem_present (people : List Person) (e : Expense) (p : Person) :
    p ∈ present people e ↔ p ∈ people ∧ 0 < personOverlap p e := by
  simp [present, List.mem_filter]

/-- The day-weighted total of a nonempty `present` list is positive. -/
theorem present_total_pos (people : List Person) (e : Expense)
    (hne : present people e ≠ []) :
    0 < ((present people e).map (fun p => personOverlap p e)).sum := by
  apply List.sum_pos
  · intro x hx
    obtain ⟨q, hq, rfl⟩ := List.mem_map.mp hx
    exact ((mem_present people e q).mp hq).2
  · intro hcon
    exact hne (List.map_eq_nil_iff.mp hcon)

/-- The per-person loop charges a non-payer the given share exactly when
present, and never charges the payer's own cell. -/
theorem fold_charges (people : List Person) (e : Expense)
    (f : List ℕ → List ℕ → ℚ) (share : Person → ℚ)
    (hnd : (people.map Person.id).Nodup)
    (hpay : e.paidBy ∈ people.map Person.id) :
    ∃ f', (present people e).foldlM
        (chargeStep e.paidBy (people.map Person.id) share) f = some f' ∧
      ∀ p ∈ people,
        (p.id ≠ e.paidBy → f' p.id e.paidBy = f p.id e.paidBy +
          (if p ∈ present people e then share p else 0)) ∧
        (p.id = e.paidBy → f' p.id e.paidBy = f p.id e.paidBy) := by
  obtain ⟨f', hfold, hval⟩ :=
    foldlM_chargeStep_eq e.paidBy (people.map Person.id) share hpay
      (present people e) f
  refine ⟨f', hfold, ?_⟩
  intro p hp
  constructor
  · intro hne
    rw [hval p.id e.paidBy]
    congr 1
    have hterm : ∀ q ∈ present people e,
        chargeDelta e.paidBy share q p.id e.paidBy =
          if q.id = p.id then share q else 0 := by
      intro q _
      unfold chargeDelta
      by_cases hqp : q.id = e.paidBy
      · rw [if_pos hqp]
        have hne2 : q.id ≠ p.id := fun hcon => hne (hcon ▸ hqp)
        rw [if_neg hne2]
      · rw [if_neg hqp]
        by_cases hc : p.id = q.id
        · rw [if_pos ⟨hc, rfl⟩, if_pos hc.symm]
        · rw [if_neg (fun hx => hc hx.1),
            if_neg (fun hx => hne hx.1),
            if_neg (fun hcon => hc hcon.symm)]
    rw [List.map_congr_left hterm]
    exact sum_filter_ite_id _ share p people hnd hp
  · intro heq
    rw [hval p.id e.paidBy]
    have hterm : ∀ q ∈ present people e,
        chargeDelta e.paidBy share q p.id e.paidBy = 0 := by
      intro q _
      unfold chargeDelta
      by_cases hqp : q.id = e.paidBy
      · rw [if_pos hqp]
      · rw [if_neg hqp,
          if_neg (fun hx => hqp (hx.1.symm.trans heq)),
          if_neg (fun hx => hqp hx.2.symm)]
    rw [sum_map_zero_of_all _ _ hterm]
    ring

end Splitter

/-- Counterexample to C1 as stated: on a reachable state whose expense
names no existing person as payer (`removePerson` sets `paidBy` to the
empty string), `calcSplits` throws a `TypeError` instead of producing a
settlement, modelled here as `none`. -/
theorem calcSplits_orphan_payer_throws :
    Splitter.calcSplits Splitter.orphanPayerState = none := by
  have hpres : Splitter.present Splitter.orphanPayerState.people
      (Splitter.orphanPayerState.expenses.get ⟨0, by norm_num [Splitter.orphanPayerState]⟩) =
      [Splitter.personB] := by
    norm_num [Splitter.present, Splitter.orphanPayerState, Splitter.personB,
      Splitter.personOverlap, Splitter.overlapDays, Splitter.JNum.val,
      List.filter]
  norm_num [Splitter.calcSplits, Splitter.orphanPayerState, Splitter.initNet,
    Splitter.processExpense, Splitter.present, Splitter.personOverlap,
    Splitter.overlapDays, Splitter.personB, Splitter.JNum.val,
    Splitter.chargeStep, List.foldlM_cons, List.foldlM_nil, List.filter]

/-- C1 (amended): whenever `calcSplits` completes without throwing, the
settlement nets to zero across all participants: the result has one row per
person in order, what `p` owes `q` equals what `q` receives from `p`, and
the sum over all people of total owed minus total received is zero. -/
theorem calcSplits_nets_to_zero (s : Splitter.State) (r : List Splitter.Row)
    (h : Splitter.calcSplits s = some r) :
    r.map Splitter.Row.person = s.people ∧
    (∀ pr ∈ r, ∀ qr ∈ r, pr.owes qr.person.id = qr.receives pr.person.id) ∧
    (r.map (fun pr => (r.map (fun qr => pr.owes qr.person.id)).sum -
        (r.map (fun qr => pr.receives qr.person.id)).sum)).sum = 0 := by
  obtain ⟨net, -, rfl, hanti⟩ := Splitter.calcSplits_inverted s r h
  refine ⟨?_, ?_, ?_⟩
  · rw [List.map_map]
    have : Splitter.Row.person ∘ Splitter.mkRow net.f = id := rfl
    rw [this, List.map_id]
  · intro pr hpr qr hqr
    obtain ⟨p, hp, rfl⟩ := List.mem_map.mp hpr
    obtain ⟨q, hq, rfl⟩ := List.mem_map.mp hqr
    exact Splitter.mkRow_pairwise net.f hanti p q
  · have hz := Splitter.sum_sum_antisym s.people
      (fun p q => (Splitter.mkRow net.f p).owes q.id -
        (Splitter.mkRow net.f p).receives q.id)
      (fun p q => Splitter.mkRow_net_antisym net.f hanti p q)
    rw [List.map_map]
    have hcong : ∀ p ∈ s.people,
        ((fun pr => ((s.people.map (Splitter.mkRow net.f)).map
            (fun qr => pr.owes qr.person.id)).sum -
          ((s.people.map (Splitter.mkRow net.f)).map
            (fun qr => pr.receives qr.person.id)).sum) ∘
          Splitter.mkRow net.f) p =
        (s.people.map (fun q => (Splitter.mkRow net.f p).owes q.id -
          (Splitter.mkRow net.f p).receives q.id)).sum := by
      intro p _
      simp only [Function.comp, List.map_map]
      rw [← Splitter.sum_map_sub]
      rfl
    rw [List.map_congr_left hcong]
    exact hz

/-- C3: processing one expense charges each person toward the payer by the
closed-form proportional allocation over the two strategies: an equal share
of the amount over the present people for split type equal, a day-weighted
share for split type by-days, nothing for a person without overlap, and
nothing on the payer's own cell. -/
theorem expense_allocation_closed_form (people : List Splitter.Person)
    (e : Splitter.Expense) (f : List ℕ → List ℕ → ℚ)
    (hnd : (people.map Splitter.Person.id).Nodup)
    (hpay : e.paidBy ∈ people.map Splitter.Person.id) :
    ∃ f', Splitter.processExpense people
        ⟨people.map Splitter.Person.id, f⟩ e =
        some ⟨people.map Splitter.Person.id, f'⟩ ∧
      ∀ p ∈ people,
        (p.id ≠ e.paidBy →
          f' p.id e.paidBy =
            f p.id e.paidBy + Splitter.specCharge people e p) ∧
        (p.id = e.paidBy → f' p.id e.paidBy = f p.id e.paidBy) := by
  by_cases hpres : Splitter.present people e = []
  · refine ⟨f, ?_, ?_⟩
    · simp [Splitter.processExpense, hpres]
    · intro p hp
      have hov : Splitter.personOverlap p e ≤ 0 := by
        by_contra hcon
        push_neg at hcon
        have hmem : p ∈ Splitter.present people e :=
          (Splitter.mem_present people e p).mpr ⟨hp, hcon⟩
        rw [hpres] at hmem
        cases hmem
      refine ⟨fun _ => ?_, fun _ => rfl⟩
      rw [Splitter.specCharge, if_pos hov]
      ring
  · have hcommon : ∀ (share : Splitter.Person → ℚ) (f' : List ℕ → List ℕ → ℚ),
        (∀ p ∈ people,
          (p.id ≠ e.paidBy → f' p.id e.paidBy = f p.id e.paidBy +
            (if p ∈ Splitter.present people e then share p else 0)) ∧
          (p.id = e.paidBy → f' p.id e.paidBy = f p.id e.paidBy)) →
        (∀ p ∈ people, share p = Splitter.specChargePos people e p) →
        ∀ p ∈ people,
          (p.id ≠ e.paidBy → f' p.id e.paidBy =
            f p.id e.paidBy + Splitter.specCharge people e p) ∧
          (p.id = e.paidBy → f' p.id e.paidBy = f p.id e.paidBy) := by
      intro share f' hval hshare p hp
      obtain ⟨h1, h2⟩ := hval p hp
      refine ⟨fun hne => ?_, h2⟩
      rw [h1 hne]
      congr 1
      by_cases hov : Splitter.personOverlap p e ≤ 0
      · rw [Splitter.specCharge, if_pos hov, if_neg (fun hmem =>
          absurd ((Splitter.mem_present people e p).mp hmem).2
            (not_lt.mpr hov))]
      · push_neg at hov
        rw [Splitter.specCharge, if_neg (not_le.mpr hov),
          if_pos ((Splitter.mem_present people e p).mpr ⟨hp, hov⟩),
          hshare p hp]
    cases hsplit : e.splitType with
    | equal =>
      obtain ⟨f', hfold, hval⟩ := Splitter.fold_charges people e f
        (fun _ => e.amount.val / ((Splitter.present people e).length : ℚ))
        hnd hpay
      refine ⟨f', ?_, ?_⟩
      · simp only [Splitter.processExpense, hsplit, if_neg hpres]
        rw [hfold]
        rfl
      · refine hcommon _ f' hval ?_
        intro p _
        simp [Splitter.specChargePos, hsplit]
    | byDays =>
      have htot : ((Splitter.present people e).map
          (fun q => Splitter.personOverlap q e)).sum ≠ 0 :=
        ne_of_gt (Splitter.present_total_pos people e hpres)
      obtain ⟨f', hfold, hval⟩ := Splitter.fold_charges people e f
        (fun q => Splitter.personOverlap q e /
          ((Splitter.present people e).map
            (fun q2 => Splitter.personOverlap q2 e)).sum * e.amount.val)
        hnd hpay
      refine ⟨f', ?_, ?_⟩
      · simp only [Splitter.processExpense, hsplit, if_neg hpres,
          if_neg htot]
        rw [hfold]
        rfl
      · refine hcommon _ f' hval ?_
        intro p _
        simp [Splitter.specChargePos, hsplit]

/-- Witness for C3: the closed-form theorem applied to a concrete pair of
people and a day-weighted expense. -/
theorem expense_allocation_closed_form_witness :
    ∃ f', Splitter.processExpense [Splitter.personA, Splitter.personB]
        ⟨[Splitter.personA, Splitter.personB].map Splitter.Person.id,
          fun _ _ => 0⟩ Splitter.demoExpense =
        some ⟨[Splitter.personA, Splitter.personB].map Splitter.Person.id,
          f'⟩ ∧
      ∀ p ∈ [Splitter.personA, Splitter.personB],
        (p.id ≠ Splitter.demoExpense.paidBy →
          f' p.id Splitter.demoExpense.paidBy =
            (fun _ _ => (0 : ℚ)) p.id Splitter.demoExpense.paidBy +
              Splitter.specCharge [Splitter.personA, Splitter.personB]
                Splitter.demoExpense p) ∧
        (p.id = Splitter.demoExpense.paidBy →
          f' p.id Splitter.demoExpense.paidBy =
            (fun _ _ => (0 : ℚ)) p.id Splitter.demoExpense.paidBy) :=
  expense_allocation_closed_form [Splitter.personA, Splitter.personB]
    Splitter.demoExpense (fun _ _ => 0) (by decide) (by decide)

namespace Enc

theorem b64Val_b64Char : ∀ n, n < 64 → b64Val (b64Char n) = some n := by
  decide

theorem b64Char_ne61 (n : ℕ) : b64Char n ≠ 61 := by
  unfold b64Char
  split_ifs <;> omega

theorem atob_b64Encode_aux :
    ∀ (n : ℕ) (bs : List ℕ), bs.length ≤ n → (∀ b ∈ bs, b < 256) →
      atob (b64Encode bs) = some bs := by
  intro n
  induction n with
  | zero =>
    intro bs hlen _
    have hnil : bs = [] := List.length_eq_zero.mp (by omega)
    subst hnil
    rfl
  | succ n ih =>
    intro bs hlen hb
    match bs with
    | [] => rfl
    | [b0] =>
      have hb0 := hb b0 (by simp)
      have h1 := b64Val_b64Char (b0 / 4) (by omega)
      have h2 := b64Val_b64Char (b0 % 4 * 16) (by omega)
      simp only [b64Encode, atob, eq_self_iff_true, if_true, and_self, h1,
        h2, Option.bind_eq_bind, Option.some_bind]
      simp only [Option.pure_def, Option.some.injEq, List.cons.injEq,
        and_true]
      omega
    | [b0, b1] =>
      have hb0 := hb b0 (by simp)
      have hb1 := hb b1 (by simp)
      have h1 := b64Val_b64Char (b0 / 4) (by omega)
      have h2 := b64Val_b64Char (b0 % 4 * 16 + b1 / 16) (by omega)
      have h3 := b64Val_b64Char (b1 % 16 * 4) (by omega)
      simp only [b64Encode, atob, if_neg (b64Char_ne61 _),
        eq_self_iff_true, if_true, and_self, h1, h2, h3,
        Option.bind_eq_bind, Option.some_bind]
      simp only [Option.pure_def, Option.some.injEq, List.cons.injEq,
        and_true]
      refine ⟨by omega, by omega⟩
    | b0 :: b1 :: b2 :: rest =>
      have hb0 := hb b0 (by simp)
      have hb1 := hb b1 (by simp)
      have hb2 := hb b2 (by simp)
      have h1 := b64Val_b64Char (b0 / 4) (by omega)
      have h2 := b64Val_b64Char (b0 % 4 * 16 + b1 / 16) (by omega)
      have h3 := b64Val_b64Char (b1 % 16 * 4 + b2 / 64) (by omega)
      have h4 := b64Val_b64Char (b2 % 64) (by omega)
      have htail : atob (b64Encode rest) = some rest := by
        apply ih rest (by simp at hlen; omega)
        intro b hbmem
        exact hb b (by simp [hbmem])
      simp only [b64Encode, atob, if_neg (b64Char_ne61 _), h1, h2, h3, h4,
        htail, Option.bind_eq_bind, Option.some_bind]
      simp only [Option.pure_def, Option.some.injEq, List.cons.injEq,
        and_true]
      refine ⟨by omega, by omega, by omega⟩

theorem atob_b64Encode (bs : List ℕ) (hb : ∀ b ∈ bs, b < 256) :
    atob (b64Encode bs) = some bs :=
  atob_b64Encode_aux bs.length bs (le_refl _) hb

theorem btoa_of_small (s : List ℕ) (h : ∀ c ∈ s, c < 256) :
    btoa s = some (b64Encode s) := by
  unfold btoa
  rw [if_pos]
  simp only [List.all_eq_true, decide_eq_true_eq]
  exact h

theorem unreserved_lt128 (c : ℕ) (h : unreservedURI c = true) : c < 128 := by
  simp only [unreservedURI, decide_eq_true_eq] at h
  omega

theorem hexVal_hexU (n : ℕ) (h : n < 16) : hexVal (hexUDigit n) = some n := by
  unfold hexUDigit hexVal
  by_cases h10 : n < 10
  · rw [if_pos h10, if_pos (by omega)]
    congr 1
    omega
  · rw [if_neg h10, if_neg (by omega), if_pos (by omega)]
    congr 1
    omega

theorem hexU_lt128 (n : ℕ) (h : n < 16) : hexUDigit n < 128 := by
  unfold hexUDigit
  split_ifs <;> omega

theorem utf8Bytes_lt256 (c : ℕ) (hv : ValidScalar c) :
    ∀ b ∈ utf8Bytes c, b < 256 := by
  intro b hb
  have h4 : c < 1114112 := by
    unfold ValidScalar at hv
    omega
  unfold utf8Bytes at hb
  split_ifs at hb <;> simp_all <;> omega

theorem unescape_pct (b : ℕ) (hb : b < 256) (t : List ℕ) :
    unescape (pctBytes b ++ t) =
      (unescape t).map (fun r => UTok.byt b :: r) := by
  simp only [pctBytes, List.cons_append, List.nil_append]
  rw [unescape, if_pos rfl,
    hexVal_hexU (b / 16) (by omega), hexVal_hexU (b % 16) (by omega)]
  change Option.map (fun r => UTok.byt (b / 16 * 16 + b % 16) :: r)
    (unescape t) = _
  rw [show b / 16 * 16 + b % 16 = b from by omega]

theorem unescape_raw (c : ℕ) (hc : ¬ c = 37) (t : List ℕ) :
    unescape (c :: t) = (unescape t).map (fun r => UTok.raw c :: r) := by
  rcases t with _ | ⟨h1, _ | ⟨h2, t1⟩⟩ <;>
    simp only [unescape, hc, if_false, ite_false]

theorem unescape_flat_pct (bs : List ℕ) (hbs : ∀ b ∈ bs, b < 256)
    (t : List ℕ) :
    unescape ((bs.map pctBytes).flatten ++ t) =
      (unescape t).map (fun r => bs.map UTok.byt ++ r) := by
  induction bs with
  | nil =>
    simp only [List.map_nil, List.flatten_nil, List.nil_append]
    cases unescape t <;> rfl
  | cons b bs ih =>
    simp only [List.map_cons, List.flatten_cons, List.append_assoc]
    rw [unescape_pct b (hbs b (List.mem_cons_self b bs)),
      ih (fun x hx => hbs x (List.mem_cons_of_mem b hx))]
    cases unescape t <;> rfl

theorem utf8DecF_raw (f : ℕ) (c : ℕ) (ts : List UTok) :
    utf8DecF (f + 1) (UTok.raw c :: ts) =
      (utf8DecF f ts).map (fun r => c :: r) := rfl

theorem utf8DecF_bytes (f : ℕ) (c : ℕ) (hv : ValidScalar c)
    (ts : List UTok) :
    utf8DecF (f + 1) ((utf8Bytes c).map UTok.byt ++ ts) =
      (utf8DecF f ts).map (fun r => c :: r) := by
  have h4 : c < 1114112 := by unfold ValidScalar at hv; omega
  by_cases h1 : c < 128
  · simp only [utf8Bytes, if_pos h1, List.map_cons, List.map_nil,
      List.cons_append, List.nil_append]
    rw [utf8DecF, if_pos h1]
  · by_cases h2 : c < 2048
    · simp only [utf8Bytes, if_neg h1, if_pos h2, List.map_cons,
        List.map_nil, List.cons_append, List.nil_append]
      rw [utf8DecF, if_neg (by omega), if_neg (by omega), if_pos (by omega)]
      rw [show utf8More 1 (192 + c / 64 - 192) (UTok.byt (128 + c % 64) :: ts)
          = if contB (128 + c % 64) then
              utf8More 0 ((192 + c / 64 - 192) * 64 + (128 + c % 64 - 128)) ts
            else none from rfl]
      rw [if_pos (show contB (128 + c % 64) = true by
        simp only [contB, decide_eq_true_eq]; omega)]
      rw [show (192 + c / 64 - 192) * 64 + (128 + c % 64 - 128) = c from
        by omega]
      rw [show utf8More 0 c ts = some (c, ts) from rfl]
      rw [show (match (some (c, ts) : Option (ℕ × List UTok)) with
          | some (cp, t2) =>
            if 128 ≤ cp ∧ ValidScalar cp then
              (utf8DecF f t2).map (fun r => cp :: r)
            else none
          | none => none) =
        if 128 ≤ c ∧ ValidScalar c then
          (utf8DecF f ts).map (fun r => c :: r)
        else none from rfl]
      rw [if_pos ⟨by omega, hv⟩]
    · by_cases h3 : c < 65536
      · simp only [utf8Bytes, if_neg h1, if_neg h2, if_pos h3,
          List.map_cons, List.map_nil, List.cons_append, List.nil_append]
        rw [utf8DecF, if_neg (by omega), if_neg (by omega),
          if_neg (by omega), if_pos (by omega)]
        rw [show utf8More 2 (224 + c / 4096 - 224)
            (UTok.byt (128 + c / 64 % 64) :: UTok.byt (128 + c % 64) :: ts) =
          if contB (128 + c / 64 % 64) then
            if contB (128 + c % 64) then
              utf8More 0 (((224 + c / 4096 - 224) * 64 +
                (128 + c / 64 % 64 - 128)) * 64 + (128 + c % 64 - 128)) ts
            else none
          else none from rfl]
        rw [if_pos (show contB (128 + c / 64 % 64) = true by
          simp only [contB, decide_eq_true_eq]; omega)]
        rw [if_pos (show contB (128 + c % 64) = true by
          simp only [contB, decide_eq_true_eq]; omega)]
        rw [show ((224 + c / 4096 - 224) * 64 + (128 + c / 64 % 64 - 128)) *
          64 + (128 + c % 64 - 128) = c from by omega]
        rw [show utf8More 0 c ts = some (c, ts) from rfl]
        rw [show (match (some (c, ts) : Option (ℕ × List UTok)) with
            | some (cp, t2) =>
              if 2048 ≤ cp ∧ ValidScalar cp then
                (utf8DecF f t2).map (fun r => cp :: r)
              else none
            | none => none) =
          if 2048 ≤ c ∧ ValidScalar c then
            (utf8DecF f ts).map (fun r => c :: r)
          else none from rfl]
        rw [if_pos ⟨by omega, hv⟩]
      · simp only [utf8Bytes, if_neg h1, if_neg h2, if_neg h3,
          List.map_cons, List.map_nil, List.cons_append, List.nil_append]
        rw [utf8DecF, if_neg (by omega), if_neg (by omega),
          if_neg (by omega), if_neg (by omega), if_pos (by omega)]
        rw [show utf8More 3 (240 + c / 262144 - 240)
            (UTok.byt (128 + c / 4096 % 64) :: UTok.byt (128 + c / 64 % 64)
              :: UTok.byt (128 + c % 64) :: ts) =
          if contB (128 + c / 4096 % 64) then
            if contB (128 + c / 64 % 64) then
              if contB (128 + c % 64) then
                utf8More 0 ((((240 + c / 262144 - 240) * 64 +
                  (128 + c / 4096 % 64 - 128)) * 64 +
                  (128 + c / 64 % 64 - 128)) * 64 + (128 + c % 64 - 128)) ts
              else none
            else none
          else none from rfl]
        rw [if_pos (show contB (128 + c / 4096 % 64) = true by
          simp only [contB, decide_eq_true_eq]; omega)]
        rw [if_pos (show contB (128 + c / 64 % 64) = true by
          simp only [contB, decide_eq_true_eq]; omega)]
        rw [if_pos (show contB (128 + c % 64) = true by
          simp only [contB, decide_eq_true_eq]; omega)]
        rw [show (((240 + c / 262144 - 240) * 64 + (128 + c / 4096 % 64 -
          128)) * 64 + (128 + c / 64 % 64 - 128)) * 64 +
          (128 + c % 64 - 128) = c from by omega]
        rw [show utf8More 0 c ts = some (c, ts) from rfl]
        rw [show (match (some (c, ts) : Option (ℕ × List UTok)) with
            | some (cp, t2) =>
              if 65536 ≤ cp ∧ ValidScalar cp then
                (utf8DecF f t2).map (fun r => cp :: r)
              else none
            | none => none) =
          if 65536 ≤ c ∧ ValidScalar c then
            (utf8DecF f ts).map (fun r => c :: r)
          else none from rfl]
        rw [if_pos ⟨by omega, hv⟩]

theorem utf8DecF_mono (f : ℕ) : ∀ (f' : ℕ), f ≤ f' → ∀ (ts : List UTok)
    (r : List ℕ), utf8DecF f ts = some r → utf8DecF f' ts = some r := by
  induction f with
  | zero => intro f' _ ts r h; cases h
  | succ f ih =>
    intro f' hf ts r h
    obtain ⟨f'', rfl⟩ : ∃ f'', f' = f'' + 1 := ⟨f' - 1, by omega⟩
    have hff : f ≤ f'' := by omega
    match ts with
    | [] => exact h
    | UTok.raw c :: t =>
      rw [utf8DecF_raw] at h ⊢
      obtain ⟨r', hr', rfl⟩ := Option.map_eq_some'.mp h
      rw [ih f'' hff t r' hr']
      rfl
    | UTok.byt b0 :: t =>
      rw [utf8DecF] at h ⊢
      split_ifs at h ⊢ with h1 h2 h3 h4 h5
      · obtain ⟨r', hr', rfl⟩ := Option.map_eq_some'.mp h
        rw [ih f'' hff t r' hr']
        rfl
      · cases hm : utf8More 1 (b0 - 192) t with
        | none => rw [hm] at h; exact absurd h (by simp)
        | some v =>
          obtain ⟨cp, t2⟩ := v
          rw [hm] at h
          simp only [] at h ⊢
          split_ifs at h ⊢ with hc
          · obtain ⟨r', hr', rfl⟩ := Option.map_eq_some'.mp h
            rw [ih f'' hff t2 r' hr']
            rfl
      · cases hm : utf8More 2 (b0 - 224) t with
        | none => rw [hm] at h; exact absurd h (by simp)
        | some v =>
          obtain ⟨cp, t2⟩ := v
          rw [hm] at h
          simp only [] at h ⊢
          split_ifs at h ⊢ with hc
          · obtain ⟨r', hr', rfl⟩ := Option.map_eq_some'.mp h
            rw [ih f'' hff t2 r' hr']
            rfl
      · cases hm : utf8More 3 (b0 - 240) t with
        | none => rw [hm] at h; exact absurd h (by simp)
        | some v =>
          obtain ⟨cp, t2⟩ := v
          rw [hm] at h
          simp only [] at h ⊢
          split_ifs at h ⊢ with hc
          · obtain ⟨r', hr', rfl⟩ := Option.map_eq_some'.mp h
            rw [ih f'' hff t2 r' hr']
            rfl

theorem utf8DecF_toks (s : List ℕ) (h : ∀ c ∈ s, ValidScalar c) :
    utf8DecF (s.length + 1) (uriToks s) = some s := by
  induction s with
  | nil => rfl
  | cons c t ih =>
    have hc := h c (List.mem_cons_self c t)
    have iht := ih (fun x hx => h x (List.mem_cons_of_mem c hx))
    simp only [uriToks, List.map_cons, List.flatten_cons, List.length_cons]
    by_cases hu : unreservedURI c = true
    · rw [if_pos hu]
      show utf8DecF (t.length + 1 + 1) (UTok.raw c :: uriToks t) = _
      rw [utf8DecF_raw, iht]
      rfl
    · rw [if_neg hu]
      show utf8DecF (t.length + 1 + 1)
        ((utf8Bytes c).map UTok.byt ++ uriToks t) = some (c :: t)
      rw [show t.length + 1 + 1 = (t.length + 1) + 1 from rfl]
      rw [utf8DecF_bytes (t.length + 1) c hc (uriToks t), iht]
      rfl

theorem unescape_enc (s : List ℕ) (hv : ∀ c ∈ s, ValidScalar c) :
    ∀ e, encodeURIComponent s = some e →
      unescape e = some (uriToks s) ∧ s.length ≤ (uriToks s).length := by
  induction s with
  | nil => intro e he; cases he; exact ⟨rfl, by simp [uriToks]⟩
  | cons c t ih =>
    intro e he
    have hc := hv c (List.mem_cons_self c t)
    rw [encodeURIComponent] at he
    cases hrest : encodeURIComponent t with
    | none => rw [hrest] at he; cases he
    | some rest =>
      rw [hrest] at he
      obtain ⟨hu1, hlen⟩ := ih (fun x hx => hv x (List.mem_cons_of_mem c hx))
        rest hrest
      simp only [Option.bind_eq_bind, Option.some_bind] at he
      by_cases hu : unreservedURI c = true
      · rw [if_pos hu] at he
        cases he
        constructor
        · rw [unescape_raw c (by
            simp only [unreservedURI, decide_eq_true_eq] at hu; omega) rest,
            hu1]
          simp only [Option.map_some']
          simp only [uriToks, List.map_cons, List.flatten_cons, if_pos hu]
          rfl
        · simp only [uriToks, List.map_cons, List.flatten_cons, if_pos hu,
            List.length_cons, List.singleton_append] at *
          omega
      · rw [if_neg hu, if_pos hc] at he
        cases he
        have hb := utf8Bytes_lt256 c hc
        constructor
        · rw [unescape_flat_pct (utf8Bytes c) hb rest, hu1]
          simp only [Option.map_some']
          simp only [uriToks, List.map_cons, List.flatten_cons, if_neg hu]
        · have hne : (utf8Bytes c).length ≠ 0 := by
            unfold utf8Bytes
            split_ifs <;> simp
          simp only [uriToks, List.map_cons, List.flatten_cons, if_neg hu,
            List.length_cons, List.length_append, List.length_map] at *
          omega

theorem enc_some (s : List ℕ) (h : ∀ c ∈ s, ValidScalar c) :
    ∃ e, encodeURIComponent s = some e := by
  induction s with
  | nil => exact ⟨[], rfl⟩
  | cons c t ih =>
    obtain ⟨e, he⟩ := ih (fun x hx => h x (List.mem_cons_of_mem c hx))
    have hc := h c (List.mem_cons_self c t)
    rw [encodeURIComponent, he]
    by_cases hu : unreservedURI c = true
    · exact ⟨c :: e, by simp [hu]⟩
    · refine ⟨((utf8Bytes c).map pctBytes).flatten ++ e, ?_⟩
      simp [hu, hc]

theorem enc_lt128 (s : List ℕ) : ∀ e, encodeURIComponent s = some e →
    ∀ b ∈ e, b < 128 := by
  induction s with
  | nil => intro e he; cases he; intro b hb; cases hb
  | cons c t ih =>
    intro e he
    rw [encodeURIComponent] at he
    cases hrest : encodeURIComponent t with
    | none => rw [hrest] at he; cases he
    | some rest =>
      rw [hrest] at he
      simp only [Option.bind_eq_bind, Option.some_bind] at he
      by_cases hu : unreservedURI c = true
      · rw [if_pos hu] at he
        cases he
        intro b hb
        rcases List.mem_cons.mp hb with rfl | hb
        · exact unreserved_lt128 b hu
        · exact ih rest hrest b hb
      · rw [if_neg hu] at he
        by_cases hc : ValidScalar c
        · rw [if_pos hc] at he
          cases he
          intro b hb
          rcases List.mem_append.mp hb with hb | hb
          · obtain ⟨l, hl, hbl⟩ := List.mem_flatten.mp hb
            obtain ⟨byte, hbyte, rfl⟩ := List.mem_map.mp hl
            have hblt : byte < 256 := utf8Bytes_lt256 c hc byte hbyte
            simp only [pctBytes, List.mem_cons, List.mem_singleton] at hbl
            rcases hbl with rfl | rfl | rfl | hfalse
            · omega
            · exact hexU_lt128 _ (by omega)
            · exact hexU_lt128 _ (by omega)
            · cases hfalse
          · exact ih rest hrest b hb
        · rw [if_neg hc] at he
          cases he

theorem uri_round (s : List ℕ) (h : ∀ c ∈ s, ValidScalar c) :
    ∃ e, encodeURIComponent s = some e ∧ (∀ b ∈ e, b < 128) ∧
      decodeURIComponent e = some s := by
  obtain ⟨e, he⟩ := enc_some s h
  obtain ⟨hun, hlen⟩ := unescape_enc s h e he
  refine ⟨e, he, enc_lt128 s e he, ?_⟩
  rw [decodeURIComponent, hun]
  simp only [Option.bind_eq_bind, Option.some_bind]
  exact utf8DecF_mono (s.length + 1) ((uriToks s).length + 1) (by omega)
    (uriToks s) s (utf8DecF_toks s h)

theorem isDigitB_iff (c : ℕ) : isDigitB c = true ↔ 48 ≤ c ∧ c ≤ 57 := by
  simp [isDigitB]

theorem natDigitsAux_eq : ∀ f n : ℕ, n ≤ f →
    natDigitsAux f n = Nat.digits 10 n := by
  intro f
  induction f with
  | zero =>
    intro n hn
    have : n = 0 := by omega
    subst this
    rw [natDigitsAux, Nat.digits_zero]
  | succ f ih =>
    intro n hn
    match n with
    | 0 => rw [natDigitsAux, Nat.digits_zero]
    | k + 1 =>
      rw [natDigitsAux, ih ((k + 1) / 10) (by omega),
        Nat.digits_def' (by omega : 1 < 10) (by omega : 0 < k + 1)]

theorem natDigits_eq (n : ℕ) :
    natDigits n = (Nat.digits 10 n).reverse.map (fun d => 48 + d) := by
  rw [natDigits, natDigitsAux_eq n n (le_refl n)]

theorem natDigits_digit (n : ℕ) : ∀ c ∈ natDigits n, 48 ≤ c ∧ c ≤ 57 := by
  intro c hc
  rw [natDigits_eq] at hc
  simp only [List.mem_map, List.mem_reverse] at hc
  obtain ⟨d, hd, rfl⟩ := hc
  have := Nat.digits_lt_base (by omega) hd
  omega

theorem digitsVal_aux (l : List ℕ) : ∀ acc : ℕ,
    l.foldl (fun acc c => acc * 10 + (c - 48)) acc =
      acc * 10 ^ l.length + digitsVal l := by
  induction l with
  | nil => intro acc; simp [digitsVal]
  | cons c t ih =>
    intro acc
    have h1 := ih (acc * 10 + (c - 48))
    have h2 := ih (c - 48)
    simp only [List.foldl_cons, List.length_cons]
    rw [h1]
    have hv : digitsVal (c :: t) = (c - 48) * 10 ^ t.length + digitsVal t := by
      simp only [digitsVal, List.foldl_cons]
      rw [show 0 * 10 + (c - 48) = c - 48 from by omega]
      exact h2
    rw [hv]
    ring

theorem digitsVal_append (a b : List ℕ) :
    digitsVal (a ++ b) = digitsVal a * 10 ^ b.length + digitsVal b := by
  simp only [digitsVal, List.foldl_append]
  exact digitsVal_aux b _

theorem digitsVal_replicate (k : ℕ) : digitsVal (List.replicate k 48) = 0 := by
  induction k with
  | zero => rfl
  | succ k ih =>
    simp only [List.replicate, digitsVal, List.foldl_cons] at *
    simpa using ih

theorem digitsVal_natDigits (n : ℕ) : digitsVal (natDigits n) = n := by
  have key : ∀ ds : List ℕ,
      digitsVal (ds.reverse.map (fun d => 48 + d)) = Nat.ofDigits 10 ds := by
    intro ds
    induction ds with
    | nil => rfl
    | cons d ds ih =>
      simp only [List.reverse_cons, List.map_append, List.map_cons,
        List.map_nil]
      rw [digitsVal_append]
      simp only [List.length_cons, List.length_nil, Nat.ofDigits_cons, ih]
      have : digitsVal [48 + d] = d := by
        simp only [digitsVal, List.foldl_cons, List.foldl_nil]
        omega
      rw [this]
      ring
  rw [natDigits_eq, key, Nat.ofDigits_digits]

theorem span_loop_split (p : ℕ → Bool) (a : List ℕ) : ∀ (b rs : List ℕ),
    (∀ x ∈ a, p x = true) → (∀ h, b.head? = some h → p h = false) →
    List.span.loop p (a ++ b) rs = (rs.reverse ++ a, b) := by
  induction a with
  | nil =>
    intro b rs _ hb
    cases b with
    | nil => simp [List.span.loop]
    | cons h t =>
      have := hb h rfl
      simp [List.span.loop, this]
  | cons x a ih =>
    intro b rs ha hb
    have hx : p x = true := ha x (List.mem_cons_self x a)
    simp only [List.cons_append, List.span.loop, hx, List.append_eq]
    rw [ih b (x :: rs) (fun y hy => ha y (List.mem_cons_of_mem x hy)) hb]
    simp

theorem span_split (p : ℕ → Bool) (a b : List ℕ)
    (ha : ∀ x ∈ a, p x = true) (hb : ∀ h, b.head? = some h → p h = false) :
    (a ++ b).span p = (a, b) := by
  rw [List.span, span_loop_split p a b [] ha hb]
  rfl

theorem printNum_parts (m : ℤ) (e : ℕ) :
    ∃ ip fp : List ℕ,
      printNum m e = (if m < 0 then [45] else []) ++ ip ++
        (if e = 0 then [] else 46 :: fp) ∧
      (∀ x ∈ ip, isDigitB x = true) ∧ (∀ x ∈ fp, isDigitB x = true) ∧
      ip ≠ [] ∧ fp.length = e ∧ digitsVal (ip ++ fp) = m.natAbs := by
  set s := natDigits m.natAbs with hs
  set s2 := List.replicate (e + 1 - s.length) 48 ++ s with hs2
  have hs2d : ∀ c ∈ s2, isDigitB c = true := by
    intro c hc
    rw [hs2] at hc
    rcases List.mem_append.mp hc with hc | hc
    · rw [List.eq_of_mem_replicate hc]
      decide
    · rw [isDigitB_iff]
      exact natDigits_digit m.natAbs c hc
  have hs2v : digitsVal s2 = m.natAbs := by
    rw [hs2, digitsVal_append, digitsVal_replicate, hs, digitsVal_natDigits]
    simp
  have hs2len : e + 1 ≤ s2.length := by
    rw [hs2]
    simp only [List.length_append, List.length_replicate]
    omega
  refine ⟨s2.take (s2.length - e), s2.drop (s2.length - e), rfl,
    ?_, ?_, ?_, ?_, ?_⟩
  · intro x hx
    exact hs2d x (List.mem_of_mem_take hx)
  · intro x hx
    exact hs2d x (List.mem_of_mem_drop hx)
  · intro hnil
    have := congrArg List.length hnil
    simp only [List.length_take, List.length_nil] at this
    omega
  · rw [List.length_drop]
    omega
  · rw [List.take_append_drop]
    exact hs2v

theorem parseNum_digits (ip rest : List ℕ) (c0 : ℕ) (ip' : List ℕ)
    (hipc : ip = c0 :: ip') (hc0ne45 : ¬ c0 = 45)
    (hipd : ∀ x ∈ ip, isDigitB x = true)
    (hrd : ∀ h, rest.head? = some h → isDigitB h = false)
    (hr46 : ¬ rest.head? = some 46) :
    parseNum (ip ++ rest) = some (JVal.jnum (digitsVal ip) 0, rest) := by
  have hipne : ip ≠ [] := by rw [hipc]; exact List.cons_ne_nil c0 ip'
  simp only [parseNum]
  rw [show (ip ++ rest).head? = some c0 from by rw [hipc]; rfl]
  rw [show (decide ((some c0 : Option ℕ) = some 45)) = false from
    by simp [hc0ne45]]
  simp only [Bool.false_eq_true, if_false]
  rw [span_split isDigitB ip rest hipd hrd]
  simp only [if_neg (show ¬ ip = [] from hipne), if_neg hr46, jsign,
    Bool.false_eq_true, if_false]

theorem parseNum_digits_neg (ip rest : List ℕ)
    (hipne : ip ≠ [])
    (hipd : ∀ x ∈ ip, isDigitB x = true)
    (hrd : ∀ h, rest.head? = some h → isDigitB h = false)
    (hr46 : ¬ rest.head? = some 46) :
    parseNum (45 :: (ip ++ rest)) =
      some (JVal.jnum (-(digitsVal ip : ℤ)) 0, rest) := by
  simp only [parseNum, List.head?_cons, eq_self_iff_true, decide_True,
    if_true, List.tail_cons]
  rw [span_split isDigitB ip rest hipd hrd]
  simp only [if_neg (show ¬ ip = [] from hipne), if_neg hr46, jsign,
    decide_True, if_true]

theorem parseNum_digits_frac (ip fp rest : List ℕ) (c0 : ℕ) (ip' : List ℕ)
    (hipc : ip = c0 :: ip') (hc0ne45 : ¬ c0 = 45)
    (hfpne : fp ≠ [])
    (hipd : ∀ x ∈ ip, isDigitB x = true)
    (hfpd : ∀ x ∈ fp, isDigitB x = true)
    (hrd : ∀ h, rest.head? = some h → isDigitB h = false) :
    parseNum (ip ++ (46 :: (fp ++ rest))) =
      some (JVal.jnum (digitsVal (ip ++ fp)) fp.length, rest) := by
  have hipne : ip ≠ [] := by rw [hipc]; exact List.cons_ne_nil c0 ip'
  have hsp1 : ∀ x, (46 :: (fp ++ rest)).head? = some x →
      isDigitB x = false := by
    intro x hx
    simp only [List.head?_cons, Option.some.injEq] at hx
    subst hx
    decide
  simp only [parseNum]
  rw [show (ip ++ (46 :: (fp ++ rest))).head? = some c0 from
    by rw [hipc]; rfl]
  rw [show (decide ((some c0 : Option ℕ) = some 45)) = false from
    by simp [hc0ne45]]
  simp only [Bool.false_eq_true, if_false]
  rw [span_split isDigitB ip (46 :: (fp ++ rest)) hipd hsp1]
  simp only [if_neg (show ¬ ip = [] from hipne), List.head?_cons,
    if_pos rfl, List.tail_cons]
  rw [span_split isDigitB fp rest hfpd hrd]
  simp only [if_neg (show ¬ fp = [] from hfpne), jsign,
    Bool.false_eq_true, if_false, eq_self_iff_true, if_true]

theorem parseNum_digits_frac_neg (ip fp rest : List ℕ)
    (hipne : ip ≠ []) (hfpne : fp ≠ [])
    (hipd : ∀ x ∈ ip, isDigitB x = true)
    (hfpd : ∀ x ∈ fp, isDigitB x = true)
    (hrd : ∀ h, rest.head? = some h → isDigitB h = false) :
    parseNum (45 :: (ip ++ (46 :: (fp ++ rest)))) =
      some (JVal.jnum (-(digitsVal (ip ++ fp) : ℤ)) fp.length, rest) := by
  have hsp1 : ∀ x, (46 :: (fp ++ rest)).head? = some x →
      isDigitB x = false := by
    intro x hx
    simp only [List.head?_cons, Option.some.injEq] at hx
    subst hx
    decide
  simp only [parseNum, List.head?_cons, eq_self_iff_true, decide_True,
    if_true, List.tail_cons]
  rw [span_split isDigitB ip (46 :: (fp ++ rest)) hipd hsp1]
  simp only [if_neg (show ¬ ip = [] from hipne), List.head?_cons,
    if_pos rfl, List.tail_cons]
  rw [span_split isDigitB fp rest hfpd hrd]
  simp only [if_neg (show ¬ fp = [] from hfpne), jsign, decide_True,
    if_true, eq_self_iff_true]

theorem parseNum_print (m : ℤ) (e : ℕ) (rest : List ℕ)
    (hd : rest.head? = none ∨ rest.head? = some 44 ∨ rest.head? = some 93 ∨
      rest.head? = some 125) :
    parseNum (printNum m e ++ rest) = some (JVal.jnum m e, rest) := by
  have hrd : ∀ h, rest.head? = some h → isDigitB h = false := by
    intro h hh
    rcases hd with hd | hd | hd | hd <;> rw [hh] at hd
    · cases hd
    · simp only [Option.some.injEq] at hd
      subst hd
      decide
    · simp only [Option.some.injEq] at hd
      subst hd
      decide
    · simp only [Option.some.injEq] at hd
      subst hd
      decide
  have hr46 : ¬ rest.head? = some 46 := by
    rcases hd with hd | hd | hd | hd <;> rw [hd] <;> simp
  obtain ⟨ip, fp, hpn, hipd, hfpd, hipne, hfplen, hval⟩ := printNum_parts m e
  obtain ⟨c0, ip', hipc⟩ := List.exists_cons_of_ne_nil hipne
  have hc0d : isDigitB c0 = true :=
    hipd c0 (by rw [hipc]; exact List.mem_cons_self c0 ip')
  have hc0ne45 : ¬ c0 = 45 := by
    rw [isDigitB_iff] at hc0d
    omega
  by_cases he : e = 0
  · subst he
    rw [if_pos rfl, List.append_nil] at hpn
    have hfpnil : fp = [] := List.eq_nil_of_length_eq_zero hfplen
    rw [hfpnil, List.append_nil] at hval
    by_cases hm : m < 0
    · rw [if_pos hm] at hpn
      rw [hpn]
      simp only [List.cons_append, List.nil_append, List.append_assoc]
      rw [parseNum_digits_neg ip rest hipne hipd hrd hr46, hval]
      congr 3
      omega
    · rw [if_neg hm] at hpn
      rw [hpn]
      simp only [List.cons_append, List.nil_append, List.append_assoc]
      rw [parseNum_digits ip rest c0 ip' hipc hc0ne45 hipd hrd hr46, hval]
      congr 3
      omega
  · rw [if_neg he] at hpn
    have hfpne : fp ≠ [] := by
      intro hnil
      rw [hnil] at hfplen
      simp at hfplen
      omega
    by_cases hm : m < 0
    · rw [if_pos hm] at hpn
      rw [hpn]
      simp only [List.cons_append, List.nil_append, List.append_assoc]
      rw [parseNum_digits_frac_neg ip fp rest hipne hfpne hipd hfpd hrd,
        hval, hfplen]
      congr 3
      omega
    · rw [if_neg hm] at hpn
      rw [hpn]
      simp only [List.cons_append, List.nil_append, List.append_assoc]
      rw [parseNum_digits_frac ip fp rest c0 ip' hipc hc0ne45 hfpne hipd
          hfpd hrd, hval, hfplen]
      congr 3
      omega

theorem hexVal_hexL (n : ℕ) (h : n < 16) : hexVal (hexLDigit n) = some n := by
  unfold hexLDigit hexVal
  by_cases h10 : n < 10
  · rw [if_pos h10, if_pos (by omega)]
    congr 1
    omega
  · rw [if_neg h10, if_neg (by omega), if_neg (by omega), if_pos (by omega)]
    congr 1
    omega

theorem escDecode_u (c : ℕ) (h : c < 32) (t : List ℕ) :
    escDecode (117 :: 48 :: 48 :: hexLDigit (c / 16) :: hexLDigit (c % 16)
      :: t) = some (c, t) := by
  rw [escDecode]
  rw [if_neg (by decide), if_neg (by decide), if_neg (by decide),
    if_neg (by decide), if_neg (by decide), if_neg (by decide),
    if_pos rfl]
  rw [hex4]
  rw [show hexVal 48 = some 0 from rfl]
  rw [hexVal_hexL (c / 16) (by omega), hexVal_hexL (c % 16) (by omega)]
  change some (0 * 4096 + 0 * 256 + c / 16 * 16 + c % 16, t) = _
  congr 2
  omega

theorem strF_char (f c : ℕ) (t : List ℕ) (h34 : ¬ c = 34) (h92 : ¬ c = 92)
    (h32 : ¬ c < 32) :
    parseStrBodyF (f + 1) (c :: t) =
      (parseStrBodyF f t).map (fun p => (c :: p.1, p.2)) := by
  rw [parseStrBodyF, if_neg h34, if_neg h92, if_neg h32]

theorem strF_esc (f : ℕ) (t l : List ℕ) (x : ℕ)
    (he : escDecode l = some (x, t)) :
    parseStrBodyF (f + 1) (92 :: l) =
      (parseStrBodyF f t).map (fun p => (x :: p.1, p.2)) := by
  rw [parseStrBodyF, if_neg (by decide), if_pos rfl, he]

theorem strF_print (s : List ℕ) : ∀ (k : ℕ) (rest : List ℕ),
    parseStrBodyF (s.length + 1 + k) ((s.map escChar).flatten ++
      (34 :: rest)) = some (s, rest) := by
  induction s with
  | nil =>
    intro k rest
    simp only [List.map_nil, List.flatten_nil, List.nil_append,
      List.length_nil]
    rw [show 0 + 1 + k = (0 + k) + 1 from by omega]
    rw [parseStrBodyF, if_pos rfl]
  | cons c s ih =>
    intro k rest
    simp only [List.map_cons, List.flatten_cons, List.length_cons,
      List.append_assoc]
    rw [show s.length + 1 + 1 + k = (s.length + 1 + k) + 1 from by omega]
    by_cases h34 : c = 34
    · subst h34
      rw [show escChar 34 = [92, 34] from rfl]
      rw [List.cons_append, List.cons_append, List.nil_append]
      have he : escDecode (34 ::
          ((s.map escChar).flatten ++ (34 :: rest))) =
          some (34, (s.map escChar).flatten ++ (34 :: rest)) := by
        rw [escDecode]
        simp
      rw [strF_esc (s.length + 1 + k) _ _ 34 he, ih k]
      rfl
    · by_cases h92 : c = 92
      · subst h92
        rw [show escChar 92 = [92, 92] from rfl]
        rw [List.cons_append, List.cons_append, List.nil_append]
        have he : escDecode (92 ::
            ((s.map escChar).flatten ++ (34 :: rest))) =
            some (92, (s.map escChar).flatten ++ (34 :: rest)) := by
          rw [escDecode]
          simp
        rw [strF_esc (s.length + 1 + k) _ _ 92 he, ih k]
        rfl
      · by_cases h32 : c < 32
        · rcases (show c = 8 ∨ c = 9 ∨ c = 10 ∨ c = 12 ∨ c = 13 ∨
              (c < 32 ∧ ¬ c = 8 ∧ ¬ c = 9 ∧ ¬ c = 10 ∧ ¬ c = 12 ∧
                ¬ c = 13) from by omega) with
            hc | hc | hc | hc | hc | hc
          · subst hc
            rw [show escChar 8 = [92, 98] from rfl]
            rw [List.cons_append, List.cons_append, List.nil_append]
            have he : escDecode (98 ::
                ((s.map escChar).flatten ++ (34 :: rest))) =
                some (8, (s.map escChar).flatten ++ (34 :: rest)) := by
              rw [escDecode]
              simp
            rw [strF_esc (s.length + 1 + k) _ _ 8 he, ih k]
            rfl
          · subst hc
            rw [show escChar 9 = [92, 116] from rfl]
            rw [List.cons_append, List.cons_append, List.nil_append]
            have he : escDecode (116 ::
                ((s.map escChar).flatten ++ (34 :: rest))) =
                some (9, (s.map escChar).flatten ++ (34 :: rest)) := by
              rw [escDecode]
              simp
            rw [strF_esc (s.length + 1 + k) _ _ 9 he, ih k]
            rfl
          · subst hc
            rw [show escChar 10 = [92, 110] from rfl]
            rw [List.cons_append, List.cons_append, List.nil_append]
            have he : escDecode (110 ::
                ((s.map escChar).flatten ++ (34 :: rest))) =
                some (10, (s.map escChar).flatten ++ (34 :: rest)) := by
              rw [escDecode]
              simp
            rw [strF_esc (s.length + 1 + k) _ _ 10 he, ih k]
            rfl
          · subst hc
            rw [show escChar 12 = [92, 102] from rfl]
            rw [List.cons_append, List.cons_append, List.nil_append]
            have he : escDecode (102 ::
                ((s.map escChar).flatten ++ (34 :: rest))) =
                some (12, (s.map escChar).flatten ++ (34 :: rest)) := by
              rw [escDecode]
              simp
            rw [strF_esc (s.length + 1 + k) _ _ 12 he, ih k]
            rfl
          · subst hc
            rw [show escChar 13 = [92, 114] from rfl]
            rw [List.cons_append, List.cons_append, List.nil_append]
            have he : escDecode (114 ::
                ((s.map escChar).flatten ++ (34 :: rest))) =
                some (13, (s.map escChar).flatten ++ (34 :: rest)) := by
              rw [escDecode]
              simp
            rw [strF_esc (s.length + 1 + k) _ _ 13 he, ih k]
            rfl
          · obtain ⟨hlt, h8, h9, h10, h12, h13⟩ := hc
            rw [show escChar c = [92, 117, 48, 48, hexLDigit (c / 16),
                hexLDigit (c % 16)] from by
              rw [escChar, if_neg h34, if_neg h92, if_neg h8, if_neg h9,
                if_neg h10, if_neg h12, if_neg h13, if_pos hlt]]
            simp only [List.cons_append, List.nil_append]
            rw [strF_esc (s.length + 1 + k) _ _ c
              (escDecode_u c hlt ((s.map escChar).flatten ++ (34 :: rest))),
              ih k]
            rfl
        · rw [show escChar c = [c] from by
            rw [escChar, if_neg h34, if_neg h92, if_neg (by omega),
              if_neg (by omega), if_neg (by omega), if_neg (by omega),
              if_neg (by omega), if_neg h32]]
          rw [List.cons_append, List.nil_append]
          rw [strF_char (s.length + 1 + k) c _ h34 h92 h32, ih k]
          rfl

theorem escChar_ne_nil (c : ℕ) : escChar c ≠ [] := by
  rw [escChar]
  split_ifs <;> simp

theorem escFlat_len (s : List ℕ) :
    s.length ≤ ((s.map escChar).flatten).length := by
  induction s with
  | nil => simp
  | cons c s ih =>
    simp only [List.map_cons, List.flatten_cons, List.length_cons,
      List.length_append]
    have : 1 ≤ (escChar c).length := by
      cases hn : escChar c with
      | nil => exact absurd hn (escChar_ne_nil c)
      | cons a l => simp
    omega

theorem parseStrBody_print (s rest : List ℕ) :
    parseStrBody ((s.map escChar).flatten ++ (34 :: rest)) =
      some (s, rest) := by
  rw [parseStrBody]
  have hlen := escFlat_len s
  have harith : ((s.map escChar).flatten ++ (34 :: rest)).length + 1 =
      s.length + 1 + (((s.map escChar).flatten).length - s.length +
        rest.length + 1) := by
    simp only [List.length_append, List.length_cons]
    omega
  rw [harith, strF_print s _ rest]

theorem one_le_needV (j : JVal) : 1 ≤ needV j := by
  cases j <;> simp [needV]

theorem one_le_needItems (xs : List JVal) : 1 ≤ needItems xs := by
  cases xs <;> simp [needItems]

theorem one_le_needFields (fs : List (List ℕ × JVal)) :
    1 ≤ needFields fs := by
  cases fs with
  | nil => simp [needFields]
  | cons kv fs =>
    obtain ⟨k, v⟩ := kv
    simp [needFields]

theorem wsB_false (c : ℕ) (h : ¬ c = 32 ∧ ¬ c = 9 ∧ ¬ c = 10 ∧ ¬ c = 13) :
    wsB c = false := by
  simp only [wsB, Bool.or_eq_false_iff, decide_eq_false_iff_not]
  exact ⟨⟨⟨h.1, h.2.1⟩, h.2.2.1⟩, h.2.2.2⟩

theorem skipWs_cons (c : ℕ) (t : List ℕ) (hc : wsB c = false) :
    skipWs (c :: t) = c :: t := by
  simp [skipWs, List.dropWhile, hc]

theorem printNum_cons (m : ℤ) (e : ℕ) : ∃ c0 r0,
    printNum m e = c0 :: r0 ∧ (c0 = 45 ∨ (48 ≤ c0 ∧ c0 ≤ 57)) := by
  obtain ⟨ip, fp, hpn, hipd, _, hipne, _, _⟩ := printNum_parts m e
  obtain ⟨c0, ip', hipc⟩ := List.exists_cons_of_ne_nil hipne
  have hc0 := hipd c0 (by rw [hipc]; exact List.mem_cons_self c0 ip')
  rw [isDigitB_iff] at hc0
  by_cases hm : m < 0
  · rw [if_pos hm] at hpn
    exact ⟨45, ip ++ (if e = 0 then [] else 46 :: fp), by rw [hpn]; rfl,
      by omega⟩
  · rw [if_neg hm] at hpn
    refine ⟨c0, ip' ++ (if e = 0 then [] else 46 :: fp), ?_, by omega⟩
    rw [hpn, hipc]
    rfl

theorem printJ_cons (j : JVal) : ∃ c r, printJ j = c :: r ∧
    (c = 110 ∨ c = 116 ∨ c = 102 ∨ c = 34 ∨ c = 91 ∨ c = 123 ∨ c = 45 ∨
      (48 ≤ c ∧ c ≤ 57)) := by
  cases j with
  | null => exact ⟨110, _, rfl, by omega⟩
  | jbool b =>
    cases b
    · exact ⟨102, _, rfl, by omega⟩
    · exact ⟨116, _, rfl, by omega⟩
  | jnum m e =>
    obtain ⟨c0, r0, hpn, hfacts⟩ := printNum_cons m e
    exact ⟨c0, r0, hpn, by omega⟩
  | jstr s => exact ⟨34, _, rfl, by omega⟩
  | jarr xs => exact ⟨91, _, rfl, by omega⟩
  | jobj fs => exact ⟨123, _, rfl, by omega⟩

theorem parseV_quote (fuel : ℕ) (Y : List ℕ) :
    parseV (fuel + 1) (34 :: Y) =
      (parseStrBody Y).map (fun p => (JVal.jstr p.1, p.2)) := rfl

theorem parseV_arr (fuel : ℕ) (Y : List ℕ) :
    parseV (fuel + 1) (91 :: Y) =
      (if (skipWs Y).head? = some 93 then
        some (JVal.jarr [], (skipWs Y).tail)
      else (parseItems fuel (skipWs Y)).map
        (fun p => (JVal.jarr p.1, p.2))) := rfl

theorem parseV_obj (fuel : ℕ) (Y : List ℕ) :
    parseV (fuel + 1) (123 :: Y) =
      (if (skipWs Y).head? = some 125 then
        some (JVal.jobj [], (skipWs Y).tail)
      else (parseFields fuel (skipWs Y)).map
        (fun p => (JVal.jobj p.1, p.2))) := rfl

theorem parseV_other (fuel c : ℕ) (Y : List ℕ) (hws : wsB c = false)
    (h34 : ¬ c = 34) (h91 : ¬ c = 91) (h123 : ¬ c = 123)
    (h110 : ¬ c = 110) (h116 : ¬ c = 116) (h102 : ¬ c = 102) :
    parseV (fuel + 1) (c :: Y) = parseNum (c :: Y) := by
  rw [parseV, skipWs_cons c Y hws]
  simp only [eq_false h34, eq_false h91, eq_false h123, eq_false h110,
    eq_false h116, eq_false h102, if_false]

theorem parseItems_step (fuel : ℕ) (s : List ℕ) :
    parseItems (fuel + 1) s = (parseV fuel s).bind (fun p =>
      match skipWs p.2 with
      | 44 :: r3 => (parseItems fuel r3).map (fun q => (p.1 :: q.1, q.2))
      | 93 :: r3 => some ([p.1], r3)
      | _ => none) := rfl

theorem parseFields_step (fuel : ℕ) (s : List ℕ) :
    parseFields (fuel + 1) s = (match skipWs s with
      | 34 :: r => (parseStrBody r).bind (fun k =>
          match skipWs k.2 with
          | 58 :: r2 => (parseV fuel r2).bind (fun v =>
              match skipWs v.2 with
              | 44 :: r4 => (parseFields fuel r4).map
                  (fun q => ((k.1, v.1) :: q.1, q.2))
              | 125 :: r4 => some ([(k.1, v.1)], r4)
              | _ => none)
          | _ => none)
      | _ => none) := rfl

theorem parse_print : ∀ fuel : ℕ,
    (∀ (j : JVal) (rest : List ℕ), needV j ≤ fuel →
      (rest.head? = none ∨ rest.head? = some 44 ∨ rest.head? = some 93 ∨
        rest.head? = some 125) →
      parseV fuel (printJ j ++ rest) = some (j, rest)) ∧
    (∀ (xs : List JVal) (rest : List ℕ), needItems xs ≤ fuel → xs ≠ [] →
      parseItems fuel (printArr xs ++ (93 :: rest)) = some (xs, rest)) ∧
    (∀ (fs : List (List ℕ × JVal)) (rest : List ℕ), needFields fs ≤ fuel →
      fs ≠ [] →
      parseFields fuel (printFields fs ++ (125 :: rest)) =
        some (fs, rest)) := by
  intro fuel
  induction fuel with
  | zero =>
    refine ⟨?_, ?_, ?_⟩
    · intro j rest hf _
      exact absurd hf (by have := one_le_needV j; omega)
    · intro xs rest hf _
      exact absurd hf (by have := one_le_needItems xs; omega)
    · intro fs rest hf _
      exact absurd hf (by have := one_le_needFields fs; omega)
  | succ fuel ih =>
    obtain ⟨ihV, ihI, ihF⟩ := ih
    refine ⟨?_, ?_, ?_⟩
    · intro j rest hf hdelim
      cases j with
      | null => rfl
      | jbool b => cases b <;> rfl
      | jstr s =>
        have harg : printJ (JVal.jstr s) ++ rest =
            34 :: ((s.map escChar).flatten ++ (34 :: rest)) := by
          show printStr s ++ rest = _
          rw [printStr]
          simp [List.append_assoc]
        rw [harg, parseV_quote, parseStrBody_print s rest]
        rfl
      | jnum m e =>
        obtain ⟨c0, r0, hpn, hfacts⟩ := printNum_cons m e
        have harg : printJ (JVal.jnum m e) ++ rest = c0 :: (r0 ++ rest) := by
          show printNum m e ++ rest = _
          rw [hpn]
          rfl
        rw [harg]
        rw [parseV_other fuel c0 (r0 ++ rest)
          (wsB_false c0 (by omega)) (by omega) (by omega) (by omega)
          (by omega) (by omega) (by omega)]
        rw [← harg]
        exact parseNum_print m e rest hdelim
      | jarr xs =>
        have harg : printJ (JVal.jarr xs) ++ rest =
            91 :: (printArr xs ++ (93 :: rest)) := by
          show 91 :: (printArr xs ++ [93]) ++ rest = _
          simp [List.append_assoc]
        rw [harg, parseV_arr]
        cases xs with
        | nil =>
          rw [show printArr ([] : List JVal) ++ (93 :: rest) =
            93 :: rest from rfl]
          rw [skipWs_cons 93 rest (by decide)]
          rfl
        | cons x xs2 =>
          obtain ⟨c0, r0, hc0, hfacts⟩ := printJ_cons x
          have hpa : ∃ Z, printArr (x :: xs2) ++ (93 :: rest) =
              c0 :: Z := by
            cases xs2 with
            | nil =>
              refine ⟨r0 ++ (93 :: rest), ?_⟩
              rw [show printArr [x] = printJ x from rfl, hc0]
              simp
            | cons y ys =>
              refine ⟨r0 ++ (44 :: printArr (y :: ys)) ++ (93 :: rest), ?_⟩
              rw [show printArr (x :: y :: ys) =
                printJ x ++ (44 :: printArr (y :: ys)) from rfl, hc0]
              simp
          obtain ⟨Z, hZ⟩ := hpa
          rw [hZ, skipWs_cons c0 Z (wsB_false c0 (by omega))]
          rw [if_neg (by
            simp only [List.head?_cons, Option.some.injEq]
            omega)]
          rw [← hZ]
          have hneed : needItems (x :: xs2) ≤ fuel := by
            simp only [needV] at hf
            omega
          rw [ihI (x :: xs2) rest hneed (by simp)]
          rfl
      | jobj fs =>
        have harg : printJ (JVal.jobj fs) ++ rest =
            123 :: (printFields fs ++ (125 :: rest)) := by
          show 123 :: (printFields fs ++ [125]) ++ rest = _
          simp [List.append_assoc]
        rw [harg, parseV_obj]
        cases fs with
        | nil =>
          rw [show printFields ([] : List (List ℕ × JVal)) ++ (125 :: rest) =
            125 :: rest from rfl]
          rw [skipWs_cons 125 rest (by decide)]
          rfl
        | cons kv fs2 =>
          obtain ⟨k, v⟩ := kv
          have hpf : ∃ Z, printFields ((k, v) :: fs2) ++ (125 :: rest) =
              34 :: Z := by
            cases fs2 with
            | nil =>
              refine ⟨(k.map escChar).flatten ++
                (34 :: (58 :: (printJ v ++ (125 :: rest)))), ?_⟩
              rw [show printFields [(k, v)] =
                printStr k ++ (58 :: printJ v) from rfl, printStr]
              simp [List.append_assoc]
            | cons kv2 gs =>
              refine ⟨(k.map escChar).flatten ++
                (34 :: (58 :: (printJ v ++ (44 :: printFields (kv2 :: gs)
                  ++ (125 :: rest))))), ?_⟩
              rw [show printFields ((k, v) :: kv2 :: gs) =
                printStr k ++ (58 :: printJ v) ++
                  (44 :: printFields (kv2 :: gs)) from rfl, printStr]
              simp [List.append_assoc]
          obtain ⟨Z, hZ⟩ := hpf
          rw [hZ, skipWs_cons 34 Z (by decide)]
          rw [if_neg (by
            simp only [List.head?_cons, Option.some.injEq]
            omega)]
          rw [← hZ]
          have hneed : needFields ((k, v) :: fs2) ≤ fuel := by
            simp only [needV] at hf
            omega
          rw [ihF ((k, v) :: fs2) rest hneed (by simp)]
          rfl
    · intro xs rest hf hne
      cases xs with
      | nil => cases hne rfl
      | cons x xs2 =>
        rw [parseItems_step]
        cases xs2 with
        | nil =>
          rw [show printArr [x] ++ (93 :: rest) =
            printJ x ++ (93 :: rest) from rfl]
          have hneed : needV x ≤ fuel := by
            simp only [needItems] at hf
            omega
          rw [ihV x (93 :: rest) hneed (by simp)]
          simp only [Option.some_bind]
          rw [skipWs_cons 93 rest (by decide)]
        | cons y ys =>
          have harg : printArr (x :: y :: ys) ++ (93 :: rest) =
              printJ x ++ (44 :: (printArr (y :: ys) ++ (93 :: rest))) := by
            rw [show printArr (x :: y :: ys) =
              printJ x ++ (44 :: printArr (y :: ys)) from rfl]
            simp [List.append_assoc]
          rw [harg]
          have hneed : needV x ≤ fuel ∧ needItems (y :: ys) ≤ fuel := by
            simp only [needItems] at hf ⊢
            omega
          rw [ihV x _ hneed.1 (by simp)]
          simp only [Option.some_bind]
          rw [skipWs_cons 44 _ (by decide)]
          simp only []
          rw [ihI (y :: ys) rest hneed.2 (by simp)]
          rfl
    · intro fs rest hf hne
      cases fs with
      | nil => cases hne rfl
      | cons kv fs2 =>
        obtain ⟨k, v⟩ := kv
        rw [parseFields_step]
        cases fs2 with
        | nil =>
          have harg : printFields [(k, v)] ++ (125 :: rest) =
              34 :: ((k.map escChar).flatten ++
                (34 :: (58 :: (printJ v ++ (125 :: rest))))) := by
            rw [show printFields [(k, v)] =
              printStr k ++ (58 :: printJ v) from rfl, printStr]
            simp [List.append_assoc]
          rw [harg, skipWs_cons 34 _ (by decide)]
          simp only []
          rw [parseStrBody_print k (58 :: (printJ v ++ (125 :: rest)))]
          simp only [Option.some_bind]
          rw [skipWs_cons 58 _ (by decide)]
          simp only []
          have hneed : needV v ≤ fuel := by
            simp only [needFields] at hf
            omega
          rw [ihV v (125 :: rest) hneed (by simp)]
          simp only [Option.some_bind]
          rw [skipWs_cons 125 rest (by decide)]
        | cons kv2 gs =>
          obtain ⟨k2, v2⟩ := kv2
          have harg : printFields ((k, v) :: (k2, v2) :: gs) ++
              (125 :: rest) =
              34 :: ((k.map escChar).flatten ++
                (34 :: (58 :: (printJ v ++
                  (44 :: (printFields ((k2, v2) :: gs) ++
                    (125 :: rest))))))) := by
            rw [show printFields ((k, v) :: (k2, v2) :: gs) =
              printStr k ++ (58 :: printJ v) ++
                (44 :: printFields ((k2, v2) :: gs)) from rfl, printStr]
            simp [List.append_assoc]
          rw [harg, skipWs_cons 34 _ (by decide)]
          simp only []
          rw [parseStrBody_print k _]
          simp only [Option.some_bind]
          rw [skipWs_cons 58 _ (by decide)]
          simp only []
          have hneed : needV v ≤ fuel ∧ needFields ((k2, v2) :: gs) ≤
              fuel := by
            simp only [needFields] at hf ⊢
            omega
          rw [ihV v _ hneed.1 (by simp)]
          simp only [Option.some_bind]
          rw [skipWs_cons 44 _ (by decide)]
          simp only []
          rw [ihF ((k2, v2) :: gs) rest hneed.2 (by simp)]
          rfl

theorem printStr_len (k : List ℕ) : 2 ≤ (printStr k).length := by
  rw [printStr]
  simp

theorem printJ_len (j : JVal) : 1 ≤ (printJ j).length := by
  obtain ⟨c, r, hc, _⟩ := printJ_cons j
  rw [hc]
  simp

theorem need_le_len : ∀ fuel : ℕ,
    (∀ j : JVal, needV j ≤ fuel → needV j ≤ (printJ j).length) ∧
    (∀ xs : List JVal, needItems xs ≤ fuel →
      needItems xs ≤ (printArr xs).length + 1) ∧
    (∀ fs : List (List ℕ × JVal), needFields fs ≤ fuel →
      needFields fs ≤ (printFields fs).length + 1) := by
  intro fuel
  induction fuel with
  | zero =>
    refine ⟨?_, ?_, ?_⟩
    · intro j hf
      exact absurd hf (by have := one_le_needV j; omega)
    · intro xs hf
      exact absurd hf (by have := one_le_needItems xs; omega)
    · intro fs hf
      exact absurd hf (by have := one_le_needFields fs; omega)
  | succ fuel ih =>
    obtain ⟨ihV, ihI, ihF⟩ := ih
    refine ⟨?_, ?_, ?_⟩
    · intro j hf
      cases j with
      | null => simp [needV, printJ]
      | jbool b => cases b <;> simp [needV, printJ]
      | jnum m e =>
        have := printJ_len (JVal.jnum m e)
        simp only [needV]
        omega
      | jstr s =>
        have := printJ_len (JVal.jstr s)
        simp only [needV]
        omega
      | jarr xs =>
        have hx : needItems xs ≤ fuel := by
          simp only [needV] at hf
          omega
        have := ihI xs hx
        simp only [needV, printJ]
        simp only [List.length_cons, List.length_append]
        simp only [needV] at hf ⊢
        omega
      | jobj fs =>
        have hx : needFields fs ≤ fuel := by
          simp only [needV] at hf
          omega
        have := ihF fs hx
        simp only [needV, printJ]
        simp only [List.length_cons, List.length_append]
        omega
    · intro xs hf
      cases xs with
      | nil => simp [needItems, printArr]
      | cons x xs2 =>
        have hneed : needV x ≤ fuel ∧ needItems xs2 ≤ fuel := by
          simp only [needItems] at hf
          have := one_le_needItems xs2
          constructor <;> omega
        have hvx := ihV x hneed.1
        have hxs := ihI xs2 hneed.2
        have hjx := printJ_len x
        cases xs2 with
        | nil =>
          rw [show printArr [x] = printJ x from rfl]
          simp only [needItems, needV] at *
          omega
        | cons y ys =>
          rw [show printArr (x :: y :: ys) =
            printJ x ++ (44 :: printArr (y :: ys)) from rfl]
          simp only [needItems] at *
          simp only [List.length_append, List.length_cons]
          omega
    · intro fs hf
      cases fs with
      | nil => simp [needFields, printFields]
      | cons kv fs2 =>
        obtain ⟨k, v⟩ := kv
        have hneed : needV v ≤ fuel ∧ needFields fs2 ≤ fuel := by
          simp only [needFields] at hf
          have := one_le_needFields fs2
          constructor <;> omega
        have hvv := ihV v hneed.1
        have hfs := ihF fs2 hneed.2
        have hjv := printJ_len v
        have hsk := printStr_len k
        cases fs2 with
        | nil =>
          rw [show printFields [(k, v)] =
            printStr k ++ (58 :: printJ v) from rfl]
          simp only [needFields] at *
          simp only [List.length_append, List.length_cons]
          omega
        | cons kv2 gs =>
          rw [show printFields ((k, v) :: kv2 :: gs) =
            printStr k ++ (58 :: printJ v) ++
              (44 :: printFields (kv2 :: gs)) from rfl]
          simp only [needFields] at *
          simp only [List.length_append, List.length_cons]
          omega

theorem parseJson_print (j : JVal) : parseJson (printJ j) = some j := by
  have hlen : needV j ≤ (printJ j).length :=
    (need_le_len (needV j)).1 j (le_refl _)
  have h := (parse_print (printJ j).length).1 j [] hlen (Or.inl rfl)
  rw [List.append_nil] at h
  rw [parseJson, h]
  rfl

theorem escChar_scalar (c : ℕ) (hc : ValidScalar c) :
    ∀ x ∈ escChar c, ValidScalar x := by
  intro x hx
  rw [escChar] at hx
  split_ifs at hx with h1 h2 h3 h4 h5 h6 h7 h8
  · simp only [List.mem_cons, List.not_mem_nil, or_false] at hx
    rcases hx with rfl | rfl <;> (left; omega)
  · simp only [List.mem_cons, List.not_mem_nil, or_false] at hx
    rcases hx with rfl | rfl <;> (left; omega)
  · simp only [List.mem_cons, List.not_mem_nil, or_false] at hx
    rcases hx with rfl | rfl <;> (left; omega)
  · simp only [List.mem_cons, List.not_mem_nil, or_false] at hx
    rcases hx with rfl | rfl <;> (left; omega)
  · simp only [List.mem_cons, List.not_mem_nil, or_false] at hx
    rcases hx with rfl | rfl <;> (left; omega)
  · simp only [List.mem_cons, List.not_mem_nil, or_false] at hx
    rcases hx with rfl | rfl <;> (left; omega)
  · simp only [List.mem_cons, List.not_mem_nil, or_false] at hx
    rcases hx with rfl | rfl <;> (left; omega)
  · have hhl : ∀ n, n < 16 → hexLDigit n < 128 := by
      intro n hn
      rw [hexLDigit]
      split_ifs <;> omega
    simp only [List.mem_cons, List.not_mem_nil, or_false] at hx
    rcases hx with rfl | rfl | rfl | rfl | rfl | rfl
    · left; omega
    · left; omega
    · left; omega
    · left; omega
    · left
      have := hhl (c / 16) (by omega)
      omega
    · left
      have := hhl (c % 16) (by omega)
      omega
  · simp only [List.mem_cons, List.not_mem_nil, or_false] at hx
    subst hx
    exact hc

theorem printStr_scalar (k : List ℕ) (hk : ∀ c ∈ k, ValidScalar c) :
    ∀ x ∈ printStr k, ValidScalar x := by
  intro x hx
  rw [printStr] at hx
  rcases List.mem_cons.mp hx with rfl | hx
  · left; omega
  · rcases List.mem_append.mp hx with hx | hx
    · obtain ⟨l, hl, hxl⟩ := List.mem_flatten.mp hx
      obtain ⟨c, hc, rfl⟩ := List.mem_map.mp hl
      exact escChar_scalar c (hk c hc) x hxl
    · simp only [List.mem_singleton] at hx
      subst hx
      left; omega

theorem printNum_scalar (m : ℤ) (e : ℕ) :
    ∀ x ∈ printNum m e, ValidScalar x := by
  intro x hx
  obtain ⟨ip, fp, hpn, hipd, hfpd, _, _, _⟩ := printNum_parts m e
  rw [hpn] at hx
  rcases List.mem_append.mp hx with hx | hx
  · rcases List.mem_append.mp hx with hx | hx
    · split_ifs at hx
      · simp only [List.mem_singleton] at hx
        subst hx
        left; omega
      · cases hx
    · have := hipd x hx
      rw [isDigitB_iff] at this
      left; omega
  · split_ifs at hx
    · cases hx
    · rcases List.mem_cons.mp hx with rfl | hx
      · left; omega
      · have := hfpd x hx
        rw [isDigitB_iff] at this
        left; omega

theorem printJ_scalar : ∀ fuel : ℕ,
    (∀ j : JVal, needV j ≤ fuel → JWF j →
      ∀ x ∈ printJ j, ValidScalar x) ∧
    (∀ xs : List JVal, needItems xs ≤ fuel → JWFList xs →
      ∀ x ∈ printArr xs, ValidScalar x) ∧
    (∀ fs : List (List ℕ × JVal), needFields fs ≤ fuel → JWFFields fs →
      ∀ x ∈ printFields fs, ValidScalar x) := by
  intro fuel
  induction fuel with
  | zero =>
    refine ⟨?_, ?_, ?_⟩
    · intro j hf
      exact absurd hf (by have := one_le_needV j; omega)
    · intro xs hf
      exact absurd hf (by have := one_le_needItems xs; omega)
    · intro fs hf
      exact absurd hf (by have := one_le_needFields fs; omega)
  | succ fuel ih =>
    obtain ⟨ihV, ihI, ihF⟩ := ih
    refine ⟨?_, ?_, ?_⟩
    · intro j hf hwf x hx
      cases j with
      | null =>
        simp only [printJ, List.mem_cons, List.not_mem_nil, or_false] at hx
        rcases hx with rfl | rfl | rfl | rfl <;> (left; omega)
      | jbool b =>
        cases b <;>
          simp only [printJ, List.mem_cons, List.not_mem_nil, or_false]
            at hx
        · rcases hx with rfl | rfl | rfl | rfl | rfl <;> (left; omega)
        · rcases hx with rfl | rfl | rfl | rfl <;> (left; omega)
      | jnum m e => exact printNum_scalar m e x hx
      | jstr s => exact printStr_scalar s hwf x hx
      | jarr xs =>
        simp only [printJ, List.mem_cons] at hx
        rcases hx with rfl | hx
        · left; omega
        · rcases List.mem_append.mp hx with hx | hx
          · exact ihI xs (by simp only [needV] at hf; omega) hwf x hx
          · simp only [List.mem_singleton] at hx
            subst hx
            left; omega
      | jobj fs =>
        simp only [printJ, List.mem_cons] at hx
        rcases hx with rfl | hx
        · left; omega
        · rcases List.mem_append.mp hx with hx | hx
          · exact ihF fs (by simp only [needV] at hf; omega) hwf x hx
          · simp only [List.mem_singleton] at hx
            subst hx
            left; omega
    · intro xs hf hwf x hx
      cases xs with
      | nil => cases hx
      | cons y xs2 =>
        obtain ⟨hwy, hwxs⟩ := hwf
        have hneed : needV y ≤ fuel ∧ needItems xs2 ≤ fuel := by
          simp only [needItems] at hf
          have := one_le_needItems xs2
          constructor <;> omega
        cases xs2 with
        | nil =>
          rw [show printArr [y] = printJ y from rfl] at hx
          exact ihV y hneed.1 hwy x hx
        | cons z zs =>
          rw [show printArr (y :: z :: zs) =
            printJ y ++ (44 :: printArr (z :: zs)) from rfl] at hx
          rcases List.mem_append.mp hx with hx | hx
          · exact ihV y hneed.1 hwy x hx
          · rcases List.mem_cons.mp hx with rfl | hx
            · left; omega
            · exact ihI (z :: zs) hneed.2 hwxs x hx
    · intro fs hf hwf x hx
      cases fs with
      | nil => cases hx
      | cons kv fs2 =>
        obtain ⟨k, v⟩ := kv
        obtain ⟨hwk, hwv, hwfs⟩ := hwf
        have hneed : needV v ≤ fuel ∧ needFields fs2 ≤ fuel := by
          simp only [needFields] at hf
          have := one_le_needFields fs2
          constructor <;> omega
        cases fs2 with
        | nil =>
          rw [show printFields [(k, v)] =
            printStr k ++ (58 :: printJ v) from rfl] at hx
          rcases List.mem_append.mp hx with hx | hx
          · exact printStr_scalar k hwk x hx
          · rcases List.mem_cons.mp hx with rfl | hx
            · left; omega
            · exact ihV v hneed.1 hwv x hx
        | cons kv2 gs =>
          rw [show printFields ((k, v) :: kv2 :: gs) =
            printStr k ++ (58 :: printJ v) ++
              (44 :: printFields (kv2 :: gs)) from rfl] at hx
          rcases List.mem_append.mp hx with hx | hx
          · rcases List.mem_append.mp hx with hx | hx
            · exact printStr_scalar k hwk x hx
            · rcases List.mem_cons.mp hx with rfl | hx
              · left; omega
              · exact ihV v hneed.1 hwv x hx
          · rcases List.mem_cons.mp hx with rfl | hx
            · left; omega
            · exact ihF (kv2 :: gs) hneed.2 hwfs x hx

theorem personToJson_wf (p : Splitter.Person) (hp : PersonWF p) :
    JWF (personToJson p) := by
  obtain ⟨hid, hname⟩ := hp
  show JWFFields _
  refine ⟨by decide, hid, by decide, hname, by decide, trivial, by decide,
    trivial, trivial⟩

theorem expenseToJson_wf (e : Splitter.Expense) (he : ExpenseWF e) :
    JWF (expenseToJson e) := by
  obtain ⟨hid, hdesc, hpaid⟩ := he
  have hsplit : ∀ c ∈ splitTypeStr e.splitType, ValidScalar c := by
    cases e.splitType <;> (rw [splitTypeStr]; decide)
  show JWFFields _
  exact ⟨by decide, hid, by decide, hdesc, by decide, trivial, by decide,
    hpaid, by decide, hsplit, by decide, trivial, by decide, trivial,
    trivial⟩

theorem jwflist_map {α : Type} (f : α → JVal) (l : List α)
    (h : ∀ x ∈ l, JWF (f x)) : JWFList (l.map f) := by
  induction l with
  | nil => trivial
  | cons a l ih =>
    exact ⟨h a (List.mem_cons_self a l),
      ih (fun x hx => h x (List.mem_cons_of_mem a hx))⟩

theorem stateToJson_wf (s : Splitter.State) (hs : StateWF s) :
    JWF (stateToJson s) := by
  obtain ⟨htitle, hpeople, hexp⟩ := hs
  show JWFFields _
  refine ⟨by decide, htitle, by decide, trivial, by decide, ?_, by decide,
    ?_, trivial⟩
  · exact jwflist_map personToJson s.people
      (fun p hp => personToJson_wf p (hpeople p hp))
  · exact jwflist_map expenseToJson s.expenses
      (fun e he => expenseToJson_wf e (hexp e he))

theorem splitTypeStr_inj (a b : Splitter.SplitType)
    (h : splitTypeStr a = splitTypeStr b) : a = b := by
  cases a <;> cases b <;> first
    | rfl
    | (rw [splitTypeStr, splitTypeStr] at h; cases h)

theorem personToJson_inj (a b : Splitter.Person)
    (h : personToJson a = personToJson b) : a = b := by
  rw [personToJson, personToJson] at h
  simp only [JVal.jobj.injEq, List.cons.injEq, Prod.mk.injEq,
    JVal.jstr.injEq, JVal.jnum.injEq, and_true, true_and] at h
  obtain ⟨hid, hname, hsd, hed⟩ := h
  obtain ⟨a1, a2, a3, a4⟩ := a
  obtain ⟨b1, b2, b3, b4⟩ := b
  obtain ⟨a3m, a3e⟩ := a3
  obtain ⟨a4m, a4e⟩ := a4
  obtain ⟨b3m, b3e⟩ := b3
  obtain ⟨b4m, b4e⟩ := b4
  simp only at hid hname hsd hed
  simp only [Splitter.Person.mk.injEq, Splitter.JNum.mk.injEq]
  exact ⟨hid, hname, ⟨hsd.1, hsd.2⟩, ⟨hed.1, hed.2⟩⟩

theorem expenseToJson_inj (a b : Splitter.Expense)
    (h : expenseToJson a = expenseToJson b) : a = b := by
  rw [expenseToJson, expenseToJson] at h
  simp only [JVal.jobj.injEq, List.cons.injEq, Prod.mk.injEq,
    JVal.jstr.injEq, JVal.jnum.injEq, and_true, true_and] at h
  obtain ⟨hid, hdesc, ham, hpaid, hsplit, hsd, hed⟩ := h
  obtain ⟨a1, a2, a3, a4, a5, a6, a7⟩ := a
  obtain ⟨b1, b2, b3, b4, b5, b6, b7⟩ := b
  simp only at hid hdesc ham hpaid hsplit hsd hed
  obtain ⟨a3m, a3e⟩ := a3
  obtain ⟨a6m, a6e⟩ := a6
  obtain ⟨a7m, a7e⟩ := a7
  obtain ⟨b3m, b3e⟩ := b3
  obtain ⟨b6m, b6e⟩ := b6
  obtain ⟨b7m, b7e⟩ := b7
  simp only at ham hsd hed
  simp only [Splitter.Expense.mk.injEq, Splitter.JNum.mk.injEq]
  exact ⟨hid, hdesc, ⟨ham.1, ham.2⟩, hpaid, splitTypeStr_inj a5 b5 hsplit,
    ⟨hsd.1, hsd.2⟩, ⟨hed.1, hed.2⟩⟩

theorem stateToJson_inj (a b : Splitter.State)
    (h : stateToJson a = stateToJson b) : a = b := by
  rw [stateToJson, stateToJson] at h
  simp only [JVal.jobj.injEq, List.cons.injEq, Prod.mk.injEq,
    JVal.jstr.injEq, JVal.jnum.injEq, JVal.jarr.injEq, and_true,
    true_and] at h
  obtain ⟨htitle, htd, hpeople, hexp⟩ := h
  obtain ⟨a1, a2, a3, a4⟩ := a
  obtain ⟨b1, b2, b3, b4⟩ := b
  obtain ⟨a2m, a2e⟩ := a2
  obtain ⟨b2m, b2e⟩ := b2
  simp only at htitle htd hpeople hexp
  simp only [Splitter.State.mk.injEq, Splitter.JNum.mk.injEq]
  refine ⟨htitle, ⟨htd.1, htd.2⟩, ?_, ?_⟩
  · exact List.map_injective_iff.mpr personToJson_inj hpeople
  · exact List.map_injective_iff.mpr expenseToJson_inj hexp

/-- C2: encoding then decoding a URL-shared state round-trips: for every
splitter state whose strings are well-formed Unicode, `encodeState`
succeeds, `decodeState` returns exactly the state's JSON serialisation
(never `null`), and that JSON value determines the state uniquely, so the
decoded object is the original state. -/
theorem encodeState_decodeState_round (s : Splitter.State)
    (hs : StateWF s) :
    ∃ enc, encodeState s = some enc ∧
      decodeState enc = some (stateToJson s) ∧
      ∀ s2 : Splitter.State, stateToJson s2 = stateToJson s → s2 = s := by
  have hwf := stateToJson_wf s hs
  have hscal : ∀ c ∈ printJ (stateToJson s), ValidScalar c :=
    (printJ_scalar (needV (stateToJson s))).1 _ (le_refl _) hwf
  obtain ⟨e, he, hlt, hdec⟩ := uri_round (printJ (stateToJson s)) hscal
  have h256 : ∀ b ∈ e, b < 256 := by
    intro b hb
    have := hlt b hb
    omega
  refine ⟨b64Encode e, ?_, ?_, fun s2 h2 => stateToJson_inj s2 s h2⟩
  · rw [encodeState, he]
    simp only [Option.bind_eq_bind, Option.some_bind]
    exact btoa_of_small e h256
  · rw [decodeState, atob_b64Encode e h256]
    simp only [Option.bind_eq_bind, Option.some_bind]
    rw [hdec]
    simp only [Option.some_bind]
    exact parseJson_print (stateToJson s)

theorem encodeState_decodeState_round_witness :
    StateWF Splitter.demoState ∧
    (∃ enc, encodeState Splitter.demoState = some enc ∧
      decodeState enc = some (stateToJson Splitter.demoState) ∧
      ∀ s2 : Splitter.State,
        stateToJson s2 = stateToJson Splitter.demoState →
          s2 = Splitter.demoState) :=
  ⟨by decide, encodeState_decodeState_round Splitter.demoState (by decide)⟩

/-- Counterexample to C6 as stated: already for the empty state, the value
`encodeState` places in the share URL differs from the base64 encoding of
the state's JSON serialisation, because the JSON text is passed through
`encodeURIComponent` before `btoa`. -/
theorem encodeState_not_plain_base64 :
    encodeState (Splitter.State.mk [] ⟨0, 0⟩ [] []) ≠
      btoa (printJ (stateToJson (Splitter.State.mk [] ⟨0, 0⟩ [] []))) := by
  decide

/-- C6 (amended): the share URL is origin, pathname, then the query
`?s=` followed by `encodeState`, which is the base64 encoding of the
percent-escaped JSON serialisation of the state —
`btoa(encodeURIComponent(JSON.stringify(state)))`, not
`btoa(JSON.stringify(state))`. -/
theorem encodeState_base64_of_escaped_json (s : Splitter.State)
    (hs : StateWF s) (origin pathname : List ℕ) :
    ∃ e, encodeURIComponent (printJ (stateToJson s)) = some e ∧
      encodeState s = some (b64Encode e) ∧
      shareUrl origin pathname s =
        some (origin ++ pathname ++ ([63, 115, 61] ++ b64Encode e)) := by
  have hwf := stateToJson_wf s hs
  have hscal : ∀ c ∈ printJ (stateToJson s), ValidScalar c :=
    (printJ_scalar (needV (stateToJson s))).1 _ (le_refl _) hwf
  obtain ⟨e, he, hlt, _⟩ := uri_round (printJ (stateToJson s)) hscal
  have h256 : ∀ b ∈ e, b < 256 := by
    intro b hb
    have := hlt b hb
    omega
  have henc : encodeState s = some (b64Encode e) := by
    rw [encodeState, he]
    simp only [Option.bind_eq_bind, Option.some_bind]
    exact btoa_of_small e h256
  refine ⟨e, he, henc, ?_⟩
  rw [shareUrl, henc]
  rfl

theorem encodeState_base64_of_escaped_json_witness :
    StateWF Splitter.demoState ∧
    (∃ e, encodeURIComponent (printJ (stateToJson Splitter.demoState)) =
        some e ∧
      encodeState Splitter.demoState = some (b64Encode e) ∧
      shareUrl [] [] Splitter.demoState =
        some ([] ++ [] ++ ([63, 115, 61] ++ b64Encode e))) :=
  ⟨by decide,
    encodeState_base64_of_escaped_json Splitter.demoState (by decide) [] []⟩

/-- C8: `decodeState` is total — every input yields `some` value or the
caught-exception result `none` — and it returns `none` exactly when
base64 decoding (`atob`), URI-component decoding, or JSON parsing fails;
otherwise it returns the parsed value. -/
theorem decodeState_stages (l : List ℕ) :
    (decodeState l = none ↔
      atob l = none ∨
      (∃ b, atob l = some b ∧ (decodeURIComponent b = none ∨
        (∃ d, decodeURIComponent b = some d ∧ parseJson d = none)))) ∧
    (∀ j, decodeState l = some j ↔
      (∃ b d, atob l = some b ∧ decodeURIComponent b = some d ∧
        parseJson d = some j)) := by
  rw [decodeState]
  cases hb : atob l with
  | none => simp
  | some b =>
    simp only [Option.bind_eq_bind, Option.some_bind, Option.some.injEq,
      reduceCtorEq, false_or]
    cases hd : decodeURIComponent b with
    | none =>
      constructor
      · simp only [Option.none_bind]
        constructor
        · intro _
          exact ⟨b, rfl, Or.inl hd⟩
        · intro _
          trivial
      · intro j
        simp only [Option.none_bind]
        constructor
        · intro hcontra
          cases hcontra
        · rintro ⟨b2, d2, hb2, hd2, _⟩
          subst hb2
          rw [hd] at hd2
          cases hd2
    | some d =>
      simp only [Option.some_bind]
      constructor
      · constructor
        · intro hp
          exact ⟨b, rfl, Or.inr ⟨d, hd, hp⟩⟩
        · rintro ⟨b2, hb2, hrest⟩
          subst hb2
          rcases hrest with hnone | ⟨d2, hd2, hp2⟩
          · rw [hd] at hnone
            cases hnone
          · rw [hd] at hd2
            injection hd2 with hde
            subst hde
            exact hp2
      · intro j
        constructor
        · intro hp
          exact ⟨b, d, rfl, hd, hp⟩
        · rintro ⟨b2, d2, hb2, hd2, hp2⟩
          subst hb2
          rw [hd] at hd2
          injection hd2 with hde
          subst hde
          exact hp2

end Enc

namespace UrlLife

theorem winv_init : WInv initW := by
  refine ⟨?_, ?_, ?_⟩ <;> simp [initW, WInv]

theorem winv_step (s : WState) (e : Ev) (h : WInv s) : WInv (step s e) := by
  obtain ⟨hlt, hnd, hout⟩ := h
  cases e with
  | load =>
    refine ⟨?_, ?_, ?_⟩
    · intro p hp
      simp only [step, stepLoad] at hp ⊢
      rcases List.mem_cons.mp hp with rfl | hmem
      · simp
      · exact Nat.lt_succ_of_lt (hlt p hmem)
    · simp only [step, stepLoad, List.map_cons]
      refine List.nodup_cons.mpr ⟨?_, hnd⟩
      intro hcon
      obtain ⟨p, hp, hfst⟩ := List.mem_map.mp hcon
      exact absurd (hfst ▸ hlt p hp) (lt_irrefl _)
    · intro u hu
      simp [step, stepLoad] at hu
  | convertDone =>
    cases hcase : s.outputUrl with
    | none =>
      refine ⟨?_, ?_, ?_⟩
      · intro p hp
        simp only [step, stepConvert, hcase] at hp ⊢
        rcases List.mem_cons.mp hp with rfl | hmem
        · simp
        · exact Nat.lt_succ_of_lt (hlt p hmem)
      · simp only [step, stepConvert, hcase, List.map_cons]
        refine List.nodup_cons.mpr ⟨?_, hnd⟩
        intro hcon
        obtain ⟨p, hp, hfst⟩ := List.mem_map.mp hcon
        exact absurd (hfst ▸ hlt p hp) (lt_irrefl _)
      · intro u hu
        simp only [step, stepConvert, hcase] at hu ⊢
        rcases Option.some.inj hu with rfl
        exact List.mem_cons_self _ _
    | some u0 =>
      refine ⟨?_, ?_, ?_⟩
      · intro p hp
        simp only [step, stepConvert, hcase] at hp ⊢
        rcases List.mem_cons.mp hp with rfl | hmem
        · simp
        · exact Nat.lt_succ_of_lt (hlt p (List.mem_of_mem_filter hmem))
      · simp only [step, stepConvert, hcase, List.map_cons]
        refine List.nodup_cons.mpr ⟨?_, ?_⟩
        · intro hcon
          obtain ⟨p, hp, hfst⟩ := List.mem_map.mp hcon
          exact absurd (hfst ▸ hlt p (List.mem_of_mem_filter hp)) (lt_irrefl _)
        · exact hnd.sublist ((List.filter_sublist s.live).map Prod.fst)
      · intro u hu
        simp only [step, stepConvert, hcase] at hu ⊢
        rcases Option.some.inj hu with rfl
        exact List.mem_cons_self _ _

theorem winv_foldl : ∀ (es : List Ev) (s : WState), WInv s →
    WInv (es.foldl step s) := by
  intro es
  induction es with
  | nil => intro s hs; exact hs
  | cons e t ih =>
    intro s hs
    exact ih (step s e) (winv_step s e hs)

theorem winv_run (es : List Ev) : WInv (run es) :=
  winv_foldl es initW winv_init

/-- Removing the unique entry carrying URL `u` lowers the count of its
kind by one and leaves other kinds alone. -/
theorem count_remove_unique (u : ℕ) (k : Kind) :
    ∀ (l : List (ℕ × Kind)), (l.map Prod.fst).Nodup → (u, k) ∈ l →
      ∀ k2, ((l.filter (fun x => decide (x.1 ≠ u))).filter
          (fun x => decide (x.2 = k2))).length + (if k = k2 then 1 else 0) =
        (l.filter (fun x => decide (x.2 = k2))).length := by
  intro l
  induction l with
  | nil =>
    intro _ hm
    cases hm
  | cons a t ih =>
    intro hnd hm k2
    simp only [List.map_cons, List.nodup_cons] at hnd
    obtain ⟨hafst, hndt⟩ := hnd
    by_cases hau : a.1 = u
    · have ha : a = (u, k) := by
        rcases List.mem_cons.mp hm with h | hmem
        · exact h.symm
        · exfalso
          rw [hau] at hafst
          exact hafst (List.mem_map_of_mem Prod.fst hmem)
      subst ha
      rw [List.filter_cons_of_neg (by simp)]
      have ht : t.filter (fun x => decide (x.1 ≠ u)) = t := by
        apply List.filter_eq_self.mpr
        intro x hx
        simp only [decide_eq_true_eq]
        intro hcon
        have hux : u ∈ List.map Prod.fst t := by
          rw [← hcon]
          exact List.mem_map_of_mem Prod.fst hx
        exact hafst hux
      rw [ht]
      by_cases hk : k = k2
      · rw [List.filter_cons_of_pos (by simp [hk]), if_pos hk]
        simp
      · rw [List.filter_cons_of_neg (by simp [hk]), if_neg hk]
        omega
    · have hmem : (u, k) ∈ t := by
        rcases List.mem_cons.mp hm with h | hmem
        · exact absurd (congrArg Prod.fst h.symm) hau
        · exact hmem
      rw [List.filter_cons_of_pos (by simp [hau])]
      by_cases hk2 : a.2 = k2
      · rw [List.filter_cons_of_pos (by simp [hk2]),
          List.filter_cons_of_pos (by simp [hk2])]
        simp only [List.length_cons]
        have := ih hndt hmem k2
        omega
      · rw [List.filter_cons_of_neg (by simp [hk2]),
          List.filter_cons_of_neg (by simp [hk2])]
        exact ih hndt hmem k2

theorem liveCount_convert (s : WState) (h : WInv s) :
    liveCount (stepConvert s) Kind.output =
      liveCount s Kind.output + (if s.outputUrl = none then 1 else 0) := by
  obtain ⟨hlt, hnd, hout⟩ := h
  cases hcase : s.outputUrl with
  | none =>
    simp only [stepConvert, hcase, liveCount]
    rw [List.filter_cons_of_pos (by simp)]
    simp
  | some u =>
    have hmem := hout u hcase
    have hcount := count_remove_unique u Kind.output s.live hnd hmem Kind.output
    rw [if_pos rfl] at hcount
    simp only [stepConvert, hcase, liveCount]
    rw [List.filter_cons_of_pos (by simp),
      if_neg (by simp : ¬(some u = (none : Option ℕ)))]
    simp only [List.length_cons]
    omega

theorem liveCount_preview_step (s : WState) (h : WInv s) (e : Ev) :
    liveCount (step s e) Kind.preview =
      liveCount s Kind.preview + (if e = Ev.load then 1 else 0) := by
  obtain ⟨hlt, hnd, hout⟩ := h
  cases e with
  | load =>
    simp only [step, stepLoad, liveCount]
    rw [List.filter_cons_of_pos (by simp)]
    simp
  | convertDone =>
    cases hcase : s.outputUrl with
    | none =>
      simp only [step, stepConvert, hcase, liveCount]
      rw [List.filter_cons_of_neg (by simp)]
      simp
    | some u =>
      have hmem := hout u hcase
      have hcount := count_remove_unique u Kind.output s.live hnd hmem
        Kind.preview
      simp only [step, stepConvert, hcase, liveCount]
      rw [List.filter_cons_of_neg (by simp)]
      simp only [if_neg (by simp : ¬(Kind.output = Kind.preview))] at hcount
      simp only [if_neg (by simp : ¬(Ev.convertDone = Ev.load))]
      omega

theorem liveCount_preview_foldl : ∀ (es : List Ev) (s : WState), WInv s →
    liveCount (es.foldl step s) Kind.preview =
      liveCount s Kind.preview +
        (es.filter (fun e => decide (e = Ev.load))).length := by
  intro es
  induction es with
  | nil =>
    intro s _
    simp
  | cons e t ih =>
    intro s hs
    simp only [List.foldl_cons]
    rw [ih (step s e) (winv_step s e hs), liveCount_preview_step s hs e]
    by_cases he : e = Ev.load
    · rw [List.filter_cons_of_pos (by simp [he]), if_pos he]
      simp only [List.length_cons]
      omega
    · rw [List.filter_cons_of_neg (by simp [he]), if_neg he]
      omega

end UrlLife

/-- Counterexample to C7 as stated: after load, convert, load, convert the
image converter has two output object URLs live at once — the second
`loadFile` forgot the first output URL without revoking it. -/
theorem convert_output_url_leak :
    UrlLife.liveCount (UrlLife.run
      [UrlLife.Ev.load, UrlLife.Ev.convertDone, UrlLife.Ev.load,
        UrlLife.Ev.convertDone]) UrlLife.Kind.output = 2 := by
  decide

/-- C7 (amended): the output URL recorded in the widget state is always
live; a successful conversion revokes that recorded URL before installing
its replacement, so the live-output count grows only when converting after
a file load (which clears the record without revoking); and preview URLs
are never revoked — one stays live for every file load. -/
theorem convert_url_discipline :
    (∀ es u, (UrlLife.run es).outputUrl = some u →
      (u, UrlLife.Kind.output) ∈ (UrlLife.run es).live) ∧
    (∀ es, UrlLife.liveCount
        (UrlLife.run (es ++ [UrlLife.Ev.convertDone])) UrlLife.Kind.output =
      UrlLife.liveCount (UrlLife.run es) UrlLife.Kind.output +
        (if (UrlLife.run es).outputUrl = none then 1 else 0)) ∧
    (∀ es, UrlLife.liveCount (UrlLife.run es) UrlLife.Kind.preview =
      (es.filter (fun e => decide (e = UrlLife.Ev.load))).length) := by
  refine ⟨?_, ?_, ?_⟩
  · intro es u hu
    exact (UrlLife.winv_run es).2.2 u hu
  · intro es
    have hrun : UrlLife.run (es ++ [UrlLife.Ev.convertDone]) =
        UrlLife.stepConvert (UrlLife.run es) := by
      simp [UrlLife.run, List.foldl_append, UrlLife.step]
    rw [hrun]
    exact UrlLife.liveCount_convert (UrlLife.run es) (UrlLife.winv_run es)
  · intro es
    have := UrlLife.liveCount_preview_foldl es UrlLife.initW UrlLife.winv_init
    simpa [UrlLife.run, UrlLife.initW, UrlLife.liveCount] using this

/-- Witness for C7: the first conjunct of the amended theorem applied at a
concrete event sequence. -/
theorem convert_url_discipline_witness :
    ((1 : ℕ), UrlLife.Kind.output) ∈
      (UrlLife.run [UrlLife.Ev.load, UrlLife.Ev.convertDone]).live :=
  convert_url_discipline.1 [UrlLife.Ev.load, UrlLife.Ev.convertDone] 1 rfl

namespace Xfer

theorem slicesFrom_flatten (c : ℕ) (buf : List ℕ) :
    ∀ (n offset : ℕ), buf.length ≤ offset + n →
      ((slicesFrom c buf offset).map Prod.snd).flatten = buf.drop offset := by
  intro n
  induction n with
  | zero =>
    intro offset h
    rw [slicesFrom, dif_neg (by omega)]
    simp [List.drop_eq_nil_of_le (by omega : buf.length ≤ offset)]
  | succ n ih =>
    intro offset h
    rw [slicesFrom]
    by_cases hlt : offset < buf.length
    · rw [dif_pos hlt]
      simp only [List.map_cons, List.flatten_cons]
      rw [ih (offset + (c + 1)) (by omega)]
      have hdd : buf.drop (offset + (c + 1)) = (buf.drop offset).drop (c + 1) := by
        rw [List.drop_drop]
      rw [hdd]
      exact List.take_append_drop (c + 1) (buf.drop offset)
    · rw [dif_neg hlt]
      simp [List.drop_eq_nil_of_le (by omega : buf.length ≤ offset)]

theorem slicesFrom_length (c : ℕ) (buf : List ℕ) :
    ∀ (n offset : ℕ), buf.length ≤ offset + n →
      (slicesFrom c buf offset).length =
        (buf.length - offset + c) / (c + 1) := by
  intro n
  induction n with
  | zero =>
    intro offset h
    rw [slicesFrom, dif_neg (by omega)]
    have hz : buf.length - offset = 0 := by omega
    rw [hz, Nat.zero_add, Nat.div_eq_of_lt (by omega)]
    rfl
  | succ n ih =>
    intro offset h
    rw [slicesFrom]
    by_cases hlt : offset < buf.length
    · rw [dif_pos hlt]
      simp only [List.length_cons]
      rw [ih (offset + (c + 1)) (by omega)]
      have key : (buf.length - offset + c) / (c + 1) =
          (buf.length - (offset + (c + 1)) + c) / (c + 1) + 1 := by
        by_cases hmc : c + 1 ≤ buf.length - offset
        · have h2 : buf.length - offset + c =
              (buf.length - (offset + (c + 1)) + c) + (c + 1) := by omega
          rw [h2, Nat.add_div_right _ (Nat.succ_pos c)]
        · have h3 : buf.length - (offset + (c + 1)) = 0 := by omega
          have h4 : buf.length - offset + c =
              (buf.length - offset - 1) + (c + 1) := by omega
          rw [h3, h4, Nat.add_div_right _ (Nat.succ_pos c), Nat.zero_add,
            Nat.div_eq_of_lt (by omega), Nat.div_eq_of_lt (by omega)]
      omega
    · rw [dif_neg hlt]
      have hz : buf.length - offset = 0 := by omega
      rw [hz, Nat.zero_add, Nat.div_eq_of_lt (by omega)]
      rfl

theorem slicesFrom_offset_le (c : ℕ) (buf : List ℕ) :
    ∀ (n offset : ℕ), buf.length ≤ offset + n →
      ∀ x ∈ (slicesFrom c buf offset).map Prod.fst, offset ≤ x := by
  intro n
  induction n with
  | zero =>
    intro offset h x hx
    rw [slicesFrom, dif_neg (by omega)] at hx
    cases hx
  | succ n ih =>
    intro offset h x hx
    rw [slicesFrom] at hx
    by_cases hlt : offset < buf.length
    · rw [dif_pos hlt] at hx
      simp only [List.map_cons, List.mem_cons] at hx
      rcases hx with rfl | hx
      · exact le_refl x
      · have := ih (offset + (c + 1)) (by omega) x hx
        omega
    · rw [dif_neg hlt] at hx
      cases hx

theorem slicesFrom_chain (c : ℕ) (buf : List ℕ) :
    ∀ (n offset : ℕ), buf.length ≤ offset + n →
      List.Chain' (· < ·) ((slicesFrom c buf offset).map Prod.fst) := by
  intro n
  induction n with
  | zero =>
    intro offset h
    rw [slicesFrom, dif_neg (by omega)]
    simp
  | succ n ih =>
    intro offset h
    rw [slicesFrom]
    by_cases hlt : offset < buf.length
    · rw [dif_pos hlt]
      simp only [List.map_cons]
      refine List.chain'_cons'.mpr ⟨?_, ih (offset + (c + 1)) (by omega)⟩
      intro y hy
      have hmem := List.mem_of_mem_head? hy
      have := slicesFrom_offset_le c buf (n + 1) (offset + (c + 1))
        (by omega) y hmem
      omega
    · rw [dif_neg hlt]
      simp

theorem sendLoopOpt_eq_optBody (c : ℕ) (buf : List ℕ) (sched : ℕ → ℕ) :
    ∀ (n offset i : ℕ), buf.length ≤ offset + n →
      sendLoopOpt c buf sched offset i =
        optBody sched (slicesFrom c buf offset) i := by
  intro n
  induction n with
  | zero =>
    intro offset i h
    rw [sendLoopOpt, dif_neg (by omega), slicesFrom, dif_neg (by omega)]
    rfl
  | succ n ih =>
    intro offset i h
    rw [sendLoopOpt, slicesFrom]
    by_cases hlt : offset < buf.length
    · rw [dif_pos hlt, dif_pos hlt]
      rw [optBody, ih (offset + (c + 1)) (i + 1) (by omega)]
    · rw [dif_neg hlt, dif_neg hlt]
      rfl

theorem filterMap_optBody (sched : ℕ → ℕ) :
    ∀ (l : List (ℕ × List ℕ)) (i : ℕ),
      (optBody sched l i).filterMap msgOf =
        l.map (fun p => Msg.chunk p.2) := by
  intro l
  induction l with
  | nil =>
    intro i
    rfl
  | cons a t ih =>
    intro i
    obtain ⟨off, bs⟩ := a
    rw [optBody]
    by_cases hw : BUFFER_HIGH < sched i
    · rw [if_pos hw]
      simp only [List.filterMap_append, List.filterMap_cons, List.map_cons]
      rw [ih (i + 1)]
      rfl
    · rw [if_neg hw]
      simp only [List.nil_append, List.filterMap_cons, List.map_cons]
      rw [ih (i + 1)]
      rfl

end Xfer

/-- C4: `sendFile` emits one metadata message carrying the file's name,
size, and MIME type; then the file bytes as ceil(n / CHUNK) binary chunks
(chunk size `c + 1`) in strictly increasing offset order whose
concatenation is the file; then one done message.  The optimised sender
additionally sets the 4 MB `bufferedAmountLowThreshold` and pauses before
exactly those chunks whose observed bufferedAmount exceeds the 16 MB high
threshold, its sent messages matching the plain stream at chunk size
262144. -/
theorem sender_stream_spec (c : ℕ) (name mime buf : List ℕ)
    (sched : ℕ → ℕ) :
    (Xfer.sendFile c name mime buf).head? =
      some (Xfer.Msg.meta name buf.length mime) ∧
    (Xfer.sendFile c name mime buf).getLast? = some Xfer.Msg.done ∧
    (Xfer.sendFile c name mime buf).filterMap Xfer.chunkBytes =
      (Xfer.slicesFrom c buf 0).map Prod.snd ∧
    (Xfer.slicesFrom c buf 0).length = (buf.length + c) / (c + 1) ∧
    List.Chain' (· < ·) ((Xfer.slicesFrom c buf 0).map Prod.fst) ∧
    ((Xfer.slicesFrom c buf 0).map Prod.snd).flatten = buf ∧
    (Xfer.sendFileOpt name mime buf sched).filterMap Xfer.msgOf =
      Xfer.sendFile 262143 name mime buf ∧
    Xfer.sendLoopOpt 262143 buf sched 0 0 =
      Xfer.optBody sched (Xfer.slicesFrom 262143 buf 0) 0 ∧
    Xfer.BUFFER_LOW = 4 * 1024 * 1024 ∧
    Xfer.BUFFER_HIGH = 16 * 1024 * 1024 := by
  have hbody := Xfer.sendLoopOpt_eq_optBody 262143 buf sched buf.length 0 0
    (by omega)
  refine ⟨rfl, ?_, ?_, ?_, ?_, ?_, ?_, hbody, rfl, rfl⟩
  · show (Xfer.Msg.meta name buf.length mime ::
      ((Xfer.slicesFrom c buf 0).map (fun p => Xfer.Msg.chunk p.2) ++
        [Xfer.Msg.done])).getLast? = some Xfer.Msg.done
    rw [← List.cons_append, List.getLast?_concat]
  · simp only [Xfer.sendFile, List.filterMap_cons, List.filterMap_append,
      List.filterMap_map]
    have hcomp : (Xfer.chunkBytes ∘ fun p : ℕ × List ℕ => Xfer.Msg.chunk p.2) =
        fun p : ℕ × List ℕ => some p.2 := rfl
    rw [hcomp]
    simp only [Xfer.chunkBytes, List.filterMap_nil, List.append_nil]
    exact congrFun (List.filterMap_eq_map Prod.snd) (Xfer.slicesFrom c buf 0)
  · have := Xfer.slicesFrom_length c buf buf.length 0 (by omega)
    simpa using this
  · exact Xfer.slicesFrom_chain c buf buf.length 0 (by omega)
  · have := Xfer.slicesFrom_flatten c buf buf.length 0 (by omega)
    simpa using this
  · simp only [Xfer.sendFileOpt, List.filterMap_cons, List.filterMap_append]
    rw [hbody, Xfer.filterMap_optBody]
    rfl

/-- C9: the paint editor's flood fill terminates for every canvas with
positive dimensions, every seed point, fill colour and opacity: run on
fuel 5·CW·CH + 2 the work stack is always exhausted (the result is
`some`), at most CW·CH pixels are ever filled (each pixel at most once),
and if the seed pixel already equals the fill colour the function returns
the write image unchanged with no writes. -/
theorem floodFill_spec (CW CH : ℕ) (rd wd : ℕ → ℕ) (px py : ℚ)
    (hex : List ℕ) (opacity : ℚ) (hCW : 1 ≤ CW) (hCH : 1 ≤ CH) :
    ∃ r, PaintEd.floodFill CW CH rd wd px py hex opacity = some r ∧
      r.2 ≤ CW * CH ∧
      ((rd (PaintEd.seedIdx CW CH px py) =
          PaintEd.hexPair (PaintEd.removeFirst 35 hex) ∧
        rd (PaintEd.seedIdx CW CH px py + 1) =
          PaintEd.hexPair ((PaintEd.removeFirst 35 hex).drop 2) ∧
        rd (PaintEd.seedIdx CW CH px py + 2) =
          PaintEd.hexPair ((PaintEd.removeFirst 35 hex).drop 4) ∧
        rd (PaintEd.seedIdx CW CH px py + 3) = PaintEd.fillA opacity) →
        r = (wd, 0)) := by
  by_cases hseed : rd (PaintEd.seedIdx CW CH px py) =
      PaintEd.hexPair (PaintEd.removeFirst 35 hex) ∧
    rd (PaintEd.seedIdx CW CH px py + 1) =
      PaintEd.hexPair ((PaintEd.removeFirst 35 hex).drop 2) ∧
    rd (PaintEd.seedIdx CW CH px py + 2) =
      PaintEd.hexPair ((PaintEd.removeFirst 35 hex).drop 4) ∧
    rd (PaintEd.seedIdx CW CH px py + 3) = PaintEd.fillA opacity
  · refine ⟨(wd, 0), ?_, Nat.zero_le _, fun _ => rfl⟩
    simp only [PaintEd.floodFill]
    rw [if_pos hseed]
  · have hidx := PaintEd.seedIdx_ok CW CH hCW hCH px py
    obtain ⟨r, hr, hb⟩ := PaintEd.floodLoopF_enough CW CH rd
      (rd (PaintEd.seedIdx CW CH px py))
      (rd (PaintEd.seedIdx CW CH px py + 1))
      (rd (PaintEd.seedIdx CW CH px py + 2))
      (rd (PaintEd.seedIdx CW CH px py + 3))
      (PaintEd.hexPair (PaintEd.removeFirst 35 hex))
      (PaintEd.hexPair ((PaintEd.removeFirst 35 hex).drop 2))
      (PaintEd.hexPair ((PaintEd.removeFirst 35 hex).drop 4))
      (PaintEd.fillA opacity)
      (5 * (CW * CH) + 2) (fun _ => false) [PaintEd.seedIdx CW CH px py]
      wd 0
      (by
        intro j hj
        simp only [List.mem_singleton] at hj
        subst hj
        exact hidx)
      (by
        rw [PaintEd.unvis_const_false]
        simp)
    refine ⟨r, ?_, ?_, fun hcon => absurd hcon hseed⟩
    · simp only [PaintEd.floodFill]
      rw [if_neg hseed]
      exact hr
    · rw [PaintEd.unvis_const_false] at hb
      simpa using hb

/-- Witness for C9: the flood-fill theorem applied on a 1-by-1 canvas with
a black fill over a zero image. -/
theorem floodFill_spec_witness :
    ∃ r, PaintEd.floodFill 1 1 (fun _ => 0) (fun _ => 0) 0 0
        [35, 48, 48, 48, 48, 48, 48] 1 = some r ∧
      r.2 ≤ 1 * 1 ∧
      (((fun _ => (0 : ℕ)) (PaintEd.seedIdx 1 1 0 0) =
          PaintEd.hexPair (PaintEd.removeFirst 35
            [35, 48, 48, 48, 48, 48, 48]) ∧
        (fun _ => (0 : ℕ)) (PaintEd.seedIdx 1 1 0 0 + 1) =
          PaintEd.hexPair ((PaintEd.removeFirst 35
            [35, 48, 48, 48, 48, 48, 48]).drop 2) ∧
        (fun _ => (0 : ℕ)) (PaintEd.seedIdx 1 1 0 0 + 2) =
          PaintEd.hexPair ((PaintEd.removeFirst 35
            [35, 48, 48, 48, 48, 48, 48]).drop 4) ∧
        (fun _ => (0 : ℕ)) (PaintEd.seedIdx 1 1 0 0 + 3) =
          PaintEd.fillA 1) →
        r = (fun _ => 0, 0)) :=
  floodFill_spec 1 1 (fun _ => 0) (fun _ => 0) 0 0
    [35, 48, 48, 48, 48, 48, 48] 1 (by decide) (by decide)

/-- Witness for C1: the amended theorem applied at a concrete two-person
state. -/
theorem calcSplits_nets_to_zero_witness :
    Splitter.demoRows.map Splitter.Row.person = Splitter.demoState.people ∧
    (∀ pr ∈ Splitter.demoRows, ∀ qr ∈ Splitter.demoRows,
      pr.owes qr.person.id = qr.receives pr.person.id) ∧
    (Splitter.demoRows.map
        (fun pr => (Splitter.demoRows.map
            (fun qr => pr.owes qr.person.id)).sum -
          (Splitter.demoRows.map
            (fun qr => pr.receives qr.person.id)).sum)).sum = 0 :=
  calcSplits_nets_to_zero Splitter.demoState Splitter.demoRows rfl

end Schlern
